import Mathlib

/-!
# strftime of libs/libc/time/lib_strftime.c

A shallow embedding of the one function of the file, `strftime`, and the
properties of it that the specification states.

* C `int` values are integers. The sums `tm_mon + 1`, `tm_year + 1900` and the
  day of the year are reduced to 32 bits by `wrapInt`, and so is the conversion
  `int chleft = max`. The counter `chleft` is only ever decreased, while it is
  positive, by a length that is itself a non-negative int, so it stays an int
  and is kept without reduction.
* The format is the list of the characters that precede its terminating NUL;
  the suffix of the list still to be read plays the role of the pointer
  `format`, so the empty list is the pointer standing on the terminator.
* The destination is the array `s[0 .. max)`; `dest` is kept as the offset
  `dest - s`, and every store is appended to a log of `(index, byte)` pairs, so
  that both the final contents and the set of indices written can be read off.
* A read outside an object (past the terminator of the format, or outside a name
  table) has no defined result in C: the run stops there and reports a `Fault`.
-/

namespace Strftime

/-! ## Machine integers and characters -/

/-- Largest value of a 32-bit C int. -/
def INT_MAX : Int := 2147483647

/-- Smallest value of a 32-bit C int. -/
def INT_MIN : Int := -2147483648

/-- Value left in a 32-bit two's complement int by an integer result. -/
def wrapInt (x : Int) : Int := (x + 2147483648) % 4294967296 - 2147483648

/-- The byte that terminates a C string. -/
def NUL : Char := Char.ofNat 0

/-- The newline character stored by the conversion n. -/
def newline : Char := Char.ofNat 10

/-- The tab character stored by the conversion t. -/
def tab : Char := Char.ofNat 9

/-! ## The broken-down time -/

/-- Modelled from the spec: the record `struct tm` is declared in time.h, which is
not part of the file; its fields are C ints (spec section 3). -/
structure Tm where
  tm_sec : Int
  tm_min : Int
  tm_hour : Int
  tm_mday : Int
  tm_mon : Int
  tm_year : Int
  tm_wday : Int
  tm_yday : Int
  tm_isdst : Int
deriving DecidableEq, Repr

/-- A record whose fields lie in the ranges of spec section 3: seconds 0..61
(leap seconds included), minutes 0..59, hours 0..23, day of month 1..31, month
index 0..11, weekday index 0..6, and a year offset that is an int for which the
calendar year `tm_year + 1900` is an int as well. -/
def Tm.valid (tm : Tm) : Prop :=
  (0 ≤ tm.tm_sec ∧ tm.tm_sec ≤ 61) ∧ (0 ≤ tm.tm_min ∧ tm.tm_min ≤ 59) ∧
  (0 ≤ tm.tm_hour ∧ tm.tm_hour ≤ 23) ∧ (1 ≤ tm.tm_mday ∧ tm.tm_mday ≤ 31) ∧
  (0 ≤ tm.tm_mon ∧ tm.tm_mon ≤ 11) ∧ (0 ≤ tm.tm_wday ∧ tm.tm_wday ≤ 6) ∧
  (INT_MIN ≤ tm.tm_year ∧ tm.tm_year + 1900 ≤ INT_MAX)

instance (tm : Tm) : Decidable tm.valid := by
  unfold Tm.valid
  infer_instance

/-! ## Private data: the four name tables -/

/-- Abbreviated weekday names. -/
def g_abbrev_wdayname : List String :=
  ["Sun", "Mon", "Tue", "Wed", "Thu", "Fri", "Sat"]

/-- Full weekday names. -/
def g_wdayname : List String :=
  ["Sunday", "Monday", "Tuesday", "Wednesday", "Thursday", "Friday", "Saturday"]

/-- Abbreviated month names. -/
def g_abbrev_monthname : List String :=
  ["Jan", "Feb", "Mar", "Apr", "May", "Jun", "Jul", "Aug", "Sep", "Oct", "Nov", "Dec"]

/-- Full month names. -/
def g_monthname : List String :=
  ["January", "February", "March", "April", "May", "June",
   "July", "August", "September", "October", "November", "December"]

/-! ## Collaborators that the file calls but does not define -/

/-- Modelled from the spec: `clock_isleapyear` is defined elsewhere; it is the
Gregorian leap-year predicate of the year number it is given. -/
def clock_isleapyear (year : Int) : Bool :=
  year % 4 = 0 ∧ (year % 100 ≠ 0 ∨ year % 400 = 0)

/-- Number of days of the month with index `k` (0 is January). -/
def daysInMonth (leapyear : Bool) (k : Nat) : Nat :=
  match k with
  | 0 => 31
  | 1 => if leapyear then 29 else 28
  | 2 => 31
  | 3 => 30
  | 4 => 31
  | 5 => 30
  | 6 => 31
  | 7 => 31
  | 8 => 30
  | 9 => 31
  | 10 => 30
  | 11 => 31
  | _ => 0

/-- Modelled from the spec: `clock_daysbeforemonth` is defined elsewhere; it is
the cumulative number of days in the months before month index `month`. -/
def clock_daysbeforemonth (month : Int) (leapyear : Bool) : Int :=
  (((List.range month.toNat).map (daysInMonth leapyear)).sum : Nat)

/-- Modelled from the spec: the conversion d of the bounded printer, with the
flag 0 when `zero` is set and a minimum field width; the sign of a negative
value counts toward the width and precedes the zero padding. -/
def fmtInt (zero : Bool) (width : Nat) (v : Int) : List Char :=
  let digits := Nat.toDigits 10 v.natAbs
  if v < 0 then
    if zero then '-' :: (List.replicate (width - (digits.length + 1)) '0' ++ digits)
    else List.replicate (width - (digits.length + 1)) ' ' ++ '-' :: digits
  else List.replicate (width - digits.length) (if zero then '0' else ' ') ++ digits

/-- Modelled from the spec: the conversion ju of the bounded printer applied to
`(uintmax_t)v`, the value reduced to 64 unsigned bits, in decimal. -/
def fmtUMax (v : Int) : List Char :=
  Nat.toDigits 10 (v % 18446744073709551616).toNat

/-- Stores of consecutive bytes starting at index `dest`. -/
def store (dest : Nat) : List Char → List (Nat × Char)
  | [] => []
  | c :: cs => (dest, c) :: store (dest + 1) cs

/-- Modelled from the spec: `snprintf(dest, size, ...)` for an expansion `text`.
It stores at most `size - 1` characters of the text followed by a NUL, nothing
at all when `size` is 0, and returns the length of the whole text. -/
def snprintf (dest : Nat) (size : Nat) (text : List Char) : List (Nat × Char) × Int :=
  (if size = 0 then [] else store dest (text.take (size - 1) ++ [NUL]), (text.length : Int))

/-! ## One conversion specification -/

/-- What a case of the switch does: print a text through `snprintf`, store one
character directly, leave `len` at 0, or index a name table outside its bounds. -/
inductive Action where
  | print (text : List Char)
  | put (c : Char)
  | skip
  | badIndex
deriving DecidableEq, Repr

/-- The read `table[i]` followed by `snprintf(dest, chleft, "%s", str)`; an index
outside the table is not a defined read. -/
def nameAt (table : List String) (i : Int) : Action :=
  if 0 ≤ i then
    match table.get? i.toNat with
    | some str => Action.print str.toList
    | none => Action.badIndex
  else Action.badIndex

/-- The switch on the conversion specifier, case by case as in the source. The
function `mktime` stands for the library routine of that name, which is defined
elsewhere; it is taken to leave the record as it is. -/
def conv (mktime : Tm → Int) (tm : Tm) (c : Char) : Action :=
  if c = 'a' then
    if tm.tm_wday < 7 then nameAt g_abbrev_wdayname tm.tm_wday else Action.skip
  else if c = 'A' then
    if tm.tm_wday < 7 then nameAt g_wdayname tm.tm_wday else Action.skip
  else if c = 'h' ∨ c = 'b' then
    if tm.tm_mon < 12 then nameAt g_abbrev_monthname tm.tm_mon else Action.skip
  else if c = 'B' then
    if tm.tm_mon < 12 then nameAt g_monthname tm.tm_mon else Action.skip
  else if c = 'C' then Action.print (fmtInt true 2 (tm.tm_year.tdiv 100))
  else if c = 'd' then Action.print (fmtInt true 2 tm.tm_mday)
  else if c = 'e' then Action.print (fmtInt false 2 tm.tm_mday)
  else if c = 'H' then Action.print (fmtInt true 2 tm.tm_hour)
  else if c = 'I' then Action.print (fmtInt true 2 (tm.tm_hour.tmod 12))
  else if c = 'j' then
    if tm.tm_mon < 12 then
      Action.print (fmtInt true 3
        (wrapInt (clock_daysbeforemonth tm.tm_mon (clock_isleapyear tm.tm_year) + tm.tm_mday)))
    else Action.skip
  else if c = 'k' then Action.print (fmtInt false 2 tm.tm_hour)
  else if c = 'l' then Action.print (fmtInt false 2 (tm.tm_hour.tmod 12))
  else if c = 'm' then Action.print (fmtInt true 2 (wrapInt (tm.tm_mon + 1)))
  else if c = 'M' then Action.print (fmtInt true 2 tm.tm_min)
  else if c = 'n' then Action.put newline
  else if c = 'p' then Action.print (if tm.tm_hour ≥ 12 then "PM".toList else "AM".toList)
  else if c = 'P' then Action.print (if tm.tm_hour ≥ 12 then "pm".toList else "am".toList)
  else if c = 'R' then
    Action.print (fmtInt true 2 tm.tm_hour ++ ':' :: fmtInt true 2 tm.tm_min)
  else if c = 's' then Action.print (fmtUMax (mktime tm))
  else if c = 'S' then Action.print (fmtInt true 2 tm.tm_sec)
  else if c = 't' then Action.put tab
  else if c = 'T' then
    Action.print (fmtInt true 2 tm.tm_hour ++ ':' :: fmtInt true 2 tm.tm_min
      ++ ':' :: fmtInt true 2 tm.tm_sec)
  else if c = 'w' then Action.print (fmtInt false 0 tm.tm_wday)
  else if c = 'y' then Action.print (fmtInt true 2 (tm.tm_year.tmod 100))
  else if c = 'Y' then Action.print (fmtInt true 4 (wrapInt (tm.tm_year + 1900)))
  else if c = '%' then Action.put '%'
  else Action.skip

/-! ## The loop -/

/-- The locals of `strftime` that change: the offset `dest - s`, the counter
`chleft`, and the log of the stores made so far, oldest first. -/
structure St where
  dest : Nat
  chleft : Int
  writes : List (Nat × Char)
deriving DecidableEq, Repr

/-- An invalid read: of the format past its terminator, or of a name table
outside its bounds. -/
inductive Fault where
  | formatOverrun
  | tableOverrun
deriving DecidableEq, Repr

/-- How the loop ends: it is left with a final state, or it makes an invalid read
in the given state. -/
inductive Outcome where
  | exit (st : St)
  | fault (f : Fault) (st : St)
deriving DecidableEq, Repr

/-- The statement `*dest++ = *format++; chleft--;` for an ordinary character. -/
def copy (c : Char) (st : St) : St :=
  { dest := st.dest + 1, chleft := st.chleft - 1, writes := st.writes ++ [(st.dest, c)] }

/-- The body of a case followed by `dest += len; chleft -= len;`. It is only
called for an action other than `badIndex`. -/
def perform (a : Action) (st : St) : St :=
  match a with
  | Action.print text =>
    let r := snprintf st.dest st.chleft.toNat text
    { dest := st.dest + r.2.toNat, chleft := st.chleft - r.2, writes := st.writes ++ r.1 }
  | Action.put c =>
    { dest := st.dest + 1, chleft := st.chleft - 1, writes := st.writes ++ [(st.dest, c)] }
  | Action.skip => st
  | Action.badIndex => st

/-- The while loop. The list is what `format` points to, up to its terminator.
After a percent sign the specifier is read and `format` moves past it; when the
specifier read is the terminator itself no case matches, and the next loop test
reads the byte after the terminator. -/
def scan (mktime : Tm → Int) (tm : Tm) : List Char → St → Outcome
  | [], st => Outcome.exit st
  | [c], st =>
    if c = NUL then Outcome.exit st
    else if st.chleft ≤ 0 then Outcome.exit st
    else if c ≠ '%' then Outcome.exit (copy c st)
    else Outcome.fault Fault.formatOverrun st
  | c :: d :: rest, st =>
    if c = NUL then Outcome.exit st
    else if st.chleft ≤ 0 then Outcome.exit st
    else if c ≠ '%' then scan mktime tm (d :: rest) (copy c st)
    else if d = NUL then Outcome.fault Fault.formatOverrun st
    else
      match conv mktime tm d with
      | Action.badIndex => Outcome.fault Fault.tableOverrun st
      | a => scan mktime tm rest (perform a st)

/-- The value returned, or the invalid read after which none is defined. -/
inductive Ret where
  | value (n : Nat)
  | undefined (f : Fault)
deriving DecidableEq, Repr

/-- What a call leaves behind: the returned value and the stores into `s`. -/
structure Result where
  ret : Ret
  writes : List (Nat × Char)
deriving DecidableEq, Repr

/-- The function `strftime(s, max, format, tm)`. The counter starts as
`int chleft = max`; after the loop a NUL is stored and `max - chleft` returned
when `chleft > 0`, and 0 is returned otherwise. The counter never exceeds
`max`, so the unsigned difference does not wrap. -/
def strftime (mktime : Tm → Int) (max : Nat) (format : List Char) (tm : Tm) : Result :=
  match scan mktime tm format { dest := 0, chleft := wrapInt max, writes := [] } with
  | Outcome.fault f st => { ret := Ret.undefined f, writes := st.writes }
  | Outcome.exit st =>
    if st.chleft > 0 then
      { ret := Ret.value (max - st.chleft.toNat), writes := st.writes ++ [(st.dest, NUL)] }
    else { ret := Ret.value 0, writes := st.writes }

/-! ## Reading the destination after the call -/

/-- The byte at index `i` after the stores of the log, none when the log never
stores there. A later store overrides an earlier one. -/
def cell : List (Nat × Char) → Nat → Option Char
  | [], _ => none
  | w :: ws, i =>
    match cell ws i with
    | some c => some c
    | none => if w.1 = i then some w.2 else none

/-- The call returned the length of `text`, and the destination holds `text`
followed by a NUL. -/
def Result.holds (r : Result) (text : List Char) : Prop :=
  r.ret = Ret.value text.length ∧
  (List.range (text.length + 1)).map (cell r.writes) = (text ++ [NUL]).map some

instance (r : Result) (text : List Char) : Decidable (r.holds text) := by
  unfold Result.holds
  infer_instance

/-! ## The rendered text, as the specification describes it -/

/-- The name with index `i` in a table, nothing when there is none. -/
def nameOf (table : List String) (i : Int) : List Char :=
  match table.get? i.toNat with
  | some str => str.toList
  | none => []

/-- The directive table of spec section 4.1 step 5, row by row: the output of
one specifier. Quotient and remainder are those of C, which the table quotes;
the padded fields are those of the bounded printer. -/
def specDirective (mktime : Tm → Int) (tm : Tm) (c : Char) : List Char :=
  if c = 'a' then (if tm.tm_wday < 7 then nameOf g_abbrev_wdayname tm.tm_wday else [])
  else if c = 'A' then (if tm.tm_wday < 7 then nameOf g_wdayname tm.tm_wday else [])
  else if c = 'b' ∨ c = 'h' then
    (if tm.tm_mon < 12 then nameOf g_abbrev_monthname tm.tm_mon else [])
  else if c = 'B' then (if tm.tm_mon < 12 then nameOf g_monthname tm.tm_mon else [])
  else if c = 'C' then fmtInt true 2 (tm.tm_year.tdiv 100)
  else if c = 'd' then fmtInt true 2 tm.tm_mday
  else if c = 'e' then fmtInt false 2 tm.tm_mday
  else if c = 'H' then fmtInt true 2 tm.tm_hour
  else if c = 'I' then fmtInt true 2 (tm.tm_hour.tmod 12)
  else if c = 'j' then
    (if tm.tm_mon < 12 then
      fmtInt true 3 (clock_daysbeforemonth tm.tm_mon (clock_isleapyear tm.tm_year) + tm.tm_mday)
     else [])
  else if c = 'k' then fmtInt false 2 tm.tm_hour
  else if c = 'l' then fmtInt false 2 (tm.tm_hour.tmod 12)
  else if c = 'm' then fmtInt true 2 (tm.tm_mon + 1)
  else if c = 'M' then fmtInt true 2 tm.tm_min
  else if c = 'n' then [newline]
  else if c = 'p' then (if tm.tm_hour ≥ 12 then "PM".toList else "AM".toList)
  else if c = 'P' then (if tm.tm_hour ≥ 12 then "pm".toList else "am".toList)
  else if c = 'R' then fmtInt true 2 tm.tm_hour ++ [':'] ++ fmtInt true 2 tm.tm_min
  else if c = 's' then fmtUMax (mktime tm)
  else if c = 'S' then fmtInt true 2 tm.tm_sec
  else if c = 't' then [tab]
  else if c = 'T' then
    fmtInt true 2 tm.tm_hour ++ [':'] ++ fmtInt true 2 tm.tm_min ++ [':']
      ++ fmtInt true 2 tm.tm_sec
  else if c = 'w' then fmtInt false 0 tm.tm_wday
  else if c = 'y' then fmtInt true 2 (tm.tm_year.tmod 100)
  else if c = 'Y' then fmtInt true 4 (tm.tm_year + 1900)
  else if c = '%' then ['%']
  else []

/-- The text T of the specification: the format scanned left to right, every
character other than a percent sign kept, every two-character directive
replaced by its output from the table; a percent sign with nothing after it
yields nothing. -/
def rendered (mktime : Tm → Int) (tm : Tm) : List Char → List Char
  | [] => []
  | [c] => if c = '%' then [] else [c]
  | c :: d :: rest =>
    if c = '%' then specDirective mktime tm d ++ rendered mktime tm rest
    else c :: rendered mktime tm (d :: rest)

/-- Every percent sign of the format is followed by a character of the format. -/
def complete : List Char → Bool
  | [] => true
  | [c] => c ≠ '%'
  | c :: d :: rest => if c = '%' then complete rest else complete (d :: rest)

/-- The characters an action adds to the output. -/
def actionText : Action → List Char
  | Action.print text => text
  | Action.put c => [c]
  | Action.skip => []
  | Action.badIndex => []

/-- The concatenation of what the loop emits for each character and each
conversion of the format, in order. -/
def expand (mktime : Tm → Int) (tm : Tm) : List Char → List Char
  | [] => []
  | [c] => if c = '%' then [] else [c]
  | c :: d :: rest =>
    if c = '%' then actionText (conv mktime tm d) ++ expand mktime tm rest
    else c :: expand mktime tm (d :: rest)

/-- No conversion of the format indexes a name table outside its bounds. -/
def safe (mktime : Tm → Int) (tm : Tm) (format : List Char) : Prop :=
  ∀ c ∈ format, conv mktime tm c ≠ Action.badIndex

/-- A `mktime` for the examples; the formats used there have no conversion s. -/
def mktime0 (_ : Tm) : Int := 0

/-- The record of 2024-01-05 08:30:00, a Friday. -/
def tmExample : Tm :=
  { tm_sec := 0, tm_min := 30, tm_hour := 8, tm_mday := 5, tm_mon := 0, tm_year := 124,
    tm_wday := 5, tm_yday := 4, tm_isdst := 0 }

/-- A record with weekday index and month index -1. -/
def tmBadIndex : Tm := { tmExample with tm_wday := -1, tm_mon := -1 }

/-- Midnight of the example day. -/
def tmMidnight : Tm := { tmExample with tm_hour := 0 }

/-- Noon of the example day. -/
def tmNoon : Tm := { tmExample with tm_hour := 12 }

/-- The record of 2000-03-01 00:00:00, a Wednesday. -/
def tmMarch2000 : Tm :=
  { tm_sec := 0, tm_min := 0, tm_hour := 0, tm_mday := 1, tm_mon := 2, tm_year := 100,
    tm_wday := 3, tm_yday := 60, tm_isdst := 0 }

/-- A record of the year 1899. -/
def tm1899 : Tm := { tmExample with tm_year := -1 }

/-! ## Auxiliary notions for the proofs -/

/-- The conversion specifiers that have a case in the switch. -/
def specifiers : List Char := "aAbBCdehHIjklmMnpPRsStTwyY%".toList

/-- The state in which the loop ended. -/
def Outcome.state : Outcome → St
  | Outcome.exit st => st
  | Outcome.fault _ st => st

/-- All stores so far lie below `bound`, and while room is left the cursor plus
the room left does not pass `bound`. -/
def Bounded (bound : Int) (st : St) : Prop :=
  (∀ p ∈ st.writes, (p.1 : Int) < bound) ∧ (0 < st.chleft → (st.dest : Int) + st.chleft ≤ bound)

/-- Every percent sign of the format is followed by a character of the format,
and no conversion of the format indexes a name table outside its bounds. -/
def sound (mktime : Tm → Int) (tm : Tm) : List Char → Bool
  | [] => true
  | [c] => c ≠ '%'
  | c :: d :: rest =>
    if c = '%' then decide (conv mktime tm d ≠ Action.badIndex) && sound mktime tm rest
    else sound mktime tm (d :: rest)

/-- The call succeeds: the loop ends with room left, so that `strftime` takes the
branch that stores the terminating NUL and returns `max - chleft`. -/
def succeeds (mktime : Tm → Int) (max : Nat) (format : List Char) (tm : Tm) : Prop :=
  match scan mktime tm format { dest := 0, chleft := wrapInt max, writes := [] } with
  | Outcome.exit st => 0 < st.chleft
  | Outcome.fault _ _ => False

instance (mktime : Tm → Int) (max : Nat) (format : List Char) (tm : Tm) :
    Decidable (succeeds mktime max format tm) := by
  unfold succeeds
  split <;> infer_instance

/-- The states in which the loop test `*format && chleft > 0` is evaluated, in
order: the state before the first iteration, then the state after each
completed iteration. The branches are those of `scan`; an iteration that indexes
a name table outside its bounds is not completed and adds no state. -/
def heads (mktime : Tm → Int) (tm : Tm) : List Char → St → List St
  | [], st => [st]
  | [c], st =>
    if c = NUL then [st]
    else if st.chleft ≤ 0 then [st]
    else if c ≠ '%' then [st, copy c st]
    else [st, st]
  | c :: d :: rest, st =>
    if c = NUL then [st]
    else if st.chleft ≤ 0 then [st]
    else if c ≠ '%' then st :: heads mktime tm (d :: rest) (copy c st)
    else if d = NUL then [st, st]
    else
      match conv mktime tm d with
      | Action.badIndex => [st]
      | a => st :: heads mktime tm rest (perform a st)

/-- Two logs of stores leave the same byte, or no byte, at every index. -/
def sameCells (a b : List (Nat × Char)) : Prop := ∀ i, cell a i = cell b i

/-- Two ways in which the loop ends that lead to the same returned value: both
leave the loop without room left, or both leave it with the same cursor, the
same counter and the same bytes stored, or both make the same invalid read
with the same bytes stored. -/
def alike : Outcome → Outcome → Prop
  | Outcome.exit s1, Outcome.exit s2 =>
    (s1.chleft ≤ 0 ∧ s2.chleft ≤ 0) ∨
      (s1.dest = s2.dest ∧ s1.chleft = s2.chleft ∧ sameCells s1.writes s2.writes)
  | Outcome.fault f1 s1, Outcome.fault f2 s2 => f1 = f2 ∧ sameCells s1.writes s2.writes
  | _, _ => False

/-! ## Lemmas on the log of stores -/

theorem wrapInt_of_le (max : Nat) (h : (max : Int) ≤ INT_MAX) : wrapInt max = max := by
  unfold wrapInt
  unfold INT_MAX at h
  omega

theorem wrapInt_le (max : Nat) : wrapInt max ≤ max := by
  unfold wrapInt
  omega

theorem mem_store (dest : Nat) (xs : List Char) (p : Nat × Char) (h : p ∈ store dest xs) :
    dest ≤ p.1 ∧ p.1 < dest + xs.length := by
  induction xs generalizing dest with
  | nil => simp [store] at h
  | cons x xs ih =>
    simp only [store, List.mem_cons] at h
    rcases h with h | h
    · subst h
      simp
    · have := ih (dest + 1) h
      simp only [List.length_cons]
      omega

theorem cell_eq_none (ws : List (Nat × Char)) (i : Nat) (h : ∀ p ∈ ws, p.1 ≠ i) :
    cell ws i = none := by
  induction ws with
  | nil => rfl
  | cons w ws ih =>
    have h1 : cell ws i = none := ih (fun p hp => h p (List.mem_cons_of_mem _ hp))
    have h2 : w.1 ≠ i := h w (List.mem_cons_self _ _)
    simp [cell, h1, h2]

theorem cell_append_none (a b : List (Nat × Char)) (i : Nat) (h : cell b i = none) :
    cell (a ++ b) i = cell a i := by
  induction a with
  | nil => simp [cell, h]
  | cons w a ih => simp [cell, ih]

theorem cell_append_some (a b : List (Nat × Char)) (i : Nat) (c : Char)
    (h : cell b i = some c) : cell (a ++ b) i = some c := by
  induction a with
  | nil => simpa using h
  | cons w a ih => simp [cell, ih]

theorem cell_store (dest : Nat) (xs : List Char) (j : Nat) :
    cell (store dest xs) (dest + j) = xs[j]? := by
  induction xs generalizing dest j with
  | nil => simp [store, cell]
  | cons x xs ih =>
    cases j with
    | zero =>
      have h1 : cell (store (dest + 1) xs) dest = none := by
        apply cell_eq_none
        intro p hp
        have := mem_store _ _ _ hp
        omega
      simp [store, cell, h1]
    | succ j =>
      have h1 : cell (store (dest + 1) xs) (dest + (j + 1)) = xs[j]? := by
        have := ih (dest + 1) j
        rwa [show dest + 1 + j = dest + (j + 1) by omega] at this
      simp only [store, cell, h1, List.getElem?_cons_succ]
      cases hx : xs[j]? with
      | some c => rfl
      | none => simp

/-! ## Unfolding the loop -/

theorem scan_nonpos (mktime : Tm → Int) (tm : Tm) (f : List Char) (st : St)
    (h : st.chleft ≤ 0) : scan mktime tm f st = Outcome.exit st := by
  match f with
  | [] => rfl
  | [c] => simp [scan, h]
  | c :: d :: rest => simp [scan, h]

theorem scan_lit (mktime : Tm → Int) (tm : Tm) (c : Char) (rest : List Char) (st : St)
    (hc : c ≠ NUL) (hp : c ≠ '%') (hk : 0 < st.chleft) :
    scan mktime tm (c :: rest) st = scan mktime tm rest (copy c st) := by
  have hk2 : ¬ st.chleft ≤ 0 := by omega
  cases rest with
  | nil => simp [scan, hc, hp, hk2]
  | cons d rest => simp [scan, hc, hp, hk2]

theorem percent_ne_NUL : '%' ≠ NUL := by decide

theorem scan_conv (mktime : Tm → Int) (tm : Tm) (d : Char) (rest : List Char) (st : St)
    (hd : d ≠ NUL) (hk : 0 < st.chleft) (ha : conv mktime tm d ≠ Action.badIndex) :
    scan mktime tm ('%' :: d :: rest) st = scan mktime tm rest (perform (conv mktime tm d) st) := by
  have hk2 : ¬ st.chleft ≤ 0 := by omega
  simp only [scan, percent_ne_NUL, hk2, hd, if_false, ne_eq, not_true_eq_false]

theorem perform_fits (a : Action) (st : St) (h : ((actionText a).length : Int) < st.chleft) :
    ∃ W, perform a st = { dest := st.dest + (actionText a).length,
                          chleft := st.chleft - (actionText a).length,
                          writes := st.writes ++ W } ∧
      (∀ p ∈ W, st.dest ≤ p.1) ∧
      (∀ j, j < (actionText a).length → cell W (st.dest + j) = (actionText a)[j]?) := by
  cases a with
  | print text =>
    simp only [actionText] at h
    have hsz : st.chleft.toNat ≠ 0 := by omega
    have htake : text.take (st.chleft.toNat - 1) = text := by
      apply List.take_of_length_le
      omega
    refine ⟨store st.dest (text ++ [NUL]), ?_, ?_, ?_⟩
    · simp [perform, snprintf, hsz, htake, actionText]
    · intro p hp
      exact (mem_store _ _ _ hp).1
    · intro j hj
      simp only [actionText] at hj
      rw [cell_store, actionText, List.getElem?_append_left hj]
  | put c =>
    refine ⟨[(st.dest, c)], ?_, ?_, ?_⟩
    · simp [perform, actionText]
    · simp
    · intro j hj
      simp only [actionText, List.length_singleton] at hj
      have : j = 0 := by omega
      subst this
      simp [cell, actionText]
  | skip =>
    refine ⟨[], ?_, ?_, ?_⟩
    · simp [perform, actionText]
    · simp
    · simp [actionText]
  | badIndex =>
    refine ⟨[], ?_, ?_, ?_⟩
    · simp [perform, actionText]
    · simp
    · simp [actionText]

/-! ## The loop when the text fits -/

theorem sound_of_safe (mktime : Tm → Int) (tm : Tm) (n : Nat) :
    ∀ f : List Char, f.length ≤ n → complete f = true → safe mktime tm f →
      sound mktime tm f = true := by
  induction n with
  | zero =>
    intro f hlen _ _
    have : f = [] := List.length_eq_zero.mp (by omega)
    subst this
    rfl
  | succ n ih =>
    intro f hlen hcomp hsafe
    match f, hlen, hcomp, hsafe with
    | [], _, _, _ => rfl
    | [c], _, hcomp, _ => simpa [sound, complete] using hcomp
    | c :: d :: rest, hlen, hcomp, hsafe =>
      simp only [List.length_cons] at hlen
      by_cases hp : c = '%'
      · subst hp
        have h1 : complete rest = true := by simpa [complete] using hcomp
        have h2 := ih rest (by omega) h1 (fun x hx => hsafe x (by simp [hx]))
        have h3 : conv mktime tm d ≠ Action.badIndex := hsafe d (by simp)
        simp [sound, h2, h3]
      · have h1 : complete (d :: rest) = true := by simpa [complete, hp] using hcomp
        have h2 := ih (d :: rest) (by simp only [List.length_cons]; omega) h1
          (fun x hx => hsafe x (List.mem_cons_of_mem _ hx))
        simpa [sound, hp] using h2

theorem scan_fits_sound (mktime : Tm → Int) (tm : Tm) (n : Nat) :
    ∀ (f : List Char) (st : St), f.length ≤ n → NUL ∉ f → sound mktime tm f = true →
      ((expand mktime tm f).length : Int) < st.chleft →
      ∃ W, scan mktime tm f st =
          Outcome.exit { dest := st.dest + (expand mktime tm f).length,
                         chleft := st.chleft - (expand mktime tm f).length,
                         writes := st.writes ++ W } ∧
        (∀ p ∈ W, st.dest ≤ p.1) ∧
        (∀ j, j < (expand mktime tm f).length →
          cell W (st.dest + j) = (expand mktime tm f)[j]?) := by
  induction n with
  | zero =>
    intro f st hlen _ _ _
    have : f = [] := List.length_eq_zero.mp (by omega)
    subst this
    exact ⟨[], by simp [scan, expand], by simp, by simp [expand]⟩
  | succ n ih =>
    intro f st hlen hnul hs hfit
    match f, hlen, hnul, hs, hfit with
    | [], _, _, _, _ => exact ⟨[], by simp [scan, expand], by simp, by simp [expand]⟩
    | [c], _, hnul, hs, hfit =>
      have hp : c ≠ '%' := by simpa [sound] using hs
      have hc : c ≠ NUL := by
        intro h
        exact hnul (by simp [h])
      simp only [expand, hp, if_false, List.length_singleton] at hfit ⊢
      have hk : ¬ st.chleft ≤ 0 := by omega
      refine ⟨[(st.dest, c)], ?_, ?_, ?_⟩
      · simp [scan, hc, hp, hk, copy]
      · simp
      · intro j hj
        have : j = 0 := by omega
        subst this
        simp [cell]
    | c :: d :: rest, hlen, hnul, hs, hfit =>
      have hc : c ≠ NUL := by
        intro h
        exact hnul (by simp [h])
      have hd : d ≠ NUL := by
        intro h
        exact hnul (by simp [h])
      by_cases hp : c = '%'
      · subst hp
        simp only [expand, if_true, List.length_append, Nat.cast_add] at hfit ⊢
        have hs0 : conv mktime tm d ≠ Action.badIndex ∧ sound mktime tm rest = true := by
          simpa [sound] using hs
        have hs2 : sound mktime tm rest = true := hs0.2
        have hnul2 : NUL ∉ rest := fun h => hnul (by simp [h])
        have ha : conv mktime tm d ≠ Action.badIndex := hs0.1
        have hlen2 : rest.length ≤ n := by
          simp only [List.length_cons] at hlen
          omega
        have hlenT := Int.ofNat_nonneg (expand mktime tm rest).length
        obtain ⟨W1, hW1, hW1lo, hW1c⟩ := perform_fits (conv mktime tm d) st (by omega)
        have hfit2 : ((expand mktime tm rest).length : Int)
            < (perform (conv mktime tm d) st).chleft := by
          rw [hW1]
          simp only
          omega
        obtain ⟨W2, hW2, hW2lo, hW2c⟩ :=
          ih rest (perform (conv mktime tm d) st) hlen2 hnul2 hs2 hfit2
        rw [hW1] at hW2 hW2lo hW2c
        simp only at hW2 hW2lo hW2c
        refine ⟨W1 ++ W2, ?_, ?_, ?_⟩
        · rw [scan_conv mktime tm d rest st hd (by omega) ha, hW1, hW2]
          simp only [Outcome.exit.injEq, St.mk.injEq, List.append_assoc, and_true]
          constructor
          · omega
          · omega
        · intro p hp
          rcases List.mem_append.mp hp with h | h
          · exact hW1lo p h
          · have := hW2lo p h
            omega
        · intro j hj
          by_cases hj1 : j < (actionText (conv mktime tm d)).length
          · have hnone : cell W2 (st.dest + j) = none := by
              apply cell_eq_none
              intro p hp
              have := hW2lo p hp
              omega
            rw [cell_append_none _ _ _ hnone, hW1c j hj1, List.getElem?_append_left hj1]
          · have hj2 : j - (actionText (conv mktime tm d)).length
                < (expand mktime tm rest).length := by omega
            have h2 := hW2c _ hj2
            rw [show st.dest + (actionText (conv mktime tm d)).length
                  + (j - (actionText (conv mktime tm d)).length) = st.dest + j by omega] at h2
            have hsome : ∃ x, (expand mktime tm rest)[j
                - (actionText (conv mktime tm d)).length]? = some x :=
              ⟨_, List.getElem?_eq_getElem hj2⟩
            obtain ⟨x, hx⟩ := hsome
            rw [hx] at h2
            rw [cell_append_some _ _ _ _ h2, List.getElem?_append_right (by omega), hx]
      · simp only [expand, hp, if_false, List.length_cons, Nat.cast_add, Nat.cast_one] at hfit ⊢
        have hs2 : sound mktime tm (d :: rest) = true := by simpa [sound, hp] using hs
        have hnul2 : NUL ∉ d :: rest := fun h => hnul (List.mem_cons_of_mem _ h)
        have hlen2 : (d :: rest).length ≤ n := by
          simp only [List.length_cons] at hlen ⊢
          omega
        have hlenT := Int.ofNat_nonneg (expand mktime tm (d :: rest)).length
        have hfit2 : ((expand mktime tm (d :: rest)).length : Int) < (copy c st).chleft := by
          simp only [copy]
          omega
        obtain ⟨W2, hW2, hW2lo, hW2c⟩ := ih (d :: rest) (copy c st) hlen2 hnul2 hs2 hfit2
        simp only [copy] at hW2 hW2lo hW2c
        refine ⟨(st.dest, c) :: W2, ?_, ?_, ?_⟩
        · rw [scan_lit mktime tm c (d :: rest) st hc hp (by omega)]
          simp only [copy]
          rw [hW2]
          simp only [Outcome.exit.injEq, St.mk.injEq, List.append_assoc, List.singleton_append,
            and_true]
          constructor
          · omega
          · omega
        · intro p hp
          rcases List.mem_cons.mp hp with h | h
          · subst h
            simp
          · have := hW2lo p h
            omega
        · intro j hj
          cases j with
          | zero =>
            have hnone : cell W2 st.dest = none := by
              apply cell_eq_none
              intro p hp
              have := hW2lo p hp
              omega
            simp [cell, hnone]
          | succ j =>
            have h2 := hW2c j (by omega)
            rw [show st.dest + 1 + j = st.dest + (j + 1) by omega] at h2
            have hj2 : j < (expand mktime tm (d :: rest)).length := by omega
            simp only [cell, h2, List.getElem?_cons_succ]
            rw [List.getElem?_eq_getElem hj2]

theorem scan_fits_aux (mktime : Tm → Int) (tm : Tm) (n : Nat) :
    ∀ (f : List Char) (st : St), f.length ≤ n → NUL ∉ f → complete f = true →
      safe mktime tm f → ((expand mktime tm f).length : Int) < st.chleft →
      ∃ W, scan mktime tm f st =
          Outcome.exit { dest := st.dest + (expand mktime tm f).length,
                         chleft := st.chleft - (expand mktime tm f).length,
                         writes := st.writes ++ W } ∧
        (∀ p ∈ W, st.dest ≤ p.1) ∧
        (∀ j, j < (expand mktime tm f).length →
          cell W (st.dest + j) = (expand mktime tm f)[j]?) := by
  intro f st _ hnul hcomp hsafe hfit
  exact scan_fits_sound mktime tm f.length f st (le_refl _) hnul
    (sound_of_safe mktime tm f.length f (le_refl _) hcomp hsafe) hfit

theorem strftime_fits_sound (mktime : Tm → Int) (max : Nat) (format : List Char) (tm : Tm)
    (hnul : NUL ∉ format) (hs : sound mktime tm format = true)
    (hfit : (expand mktime tm format).length < max) (hmax : (max : Int) ≤ INT_MAX) :
    succeeds mktime max format tm ∧
      (strftime mktime max format tm).holds (expand mktime tm format) := by
  have hw : wrapInt max = max := wrapInt_of_le max hmax
  obtain ⟨W, hW, hWlo, hWc⟩ := scan_fits_sound mktime tm format.length format
    { dest := 0, chleft := wrapInt max, writes := [] } (le_refl _) hnul hs
    (by simp only [hw]; exact_mod_cast hfit)
  simp only [hw, List.nil_append, Nat.zero_add] at hW hWc
  have hpos : ((max : Int) - ((expand mktime tm format).length : Int)) > 0 := by omega
  have hret : max - ((max : Int) - ((expand mktime tm format).length : Int)).toNat
      = (expand mktime tm format).length := by omega
  refine ⟨by unfold succeeds; rw [hw, hW]; exact hpos, ?_⟩
  unfold strftime Result.holds
  rw [hw, hW]
  simp only [hpos, if_true, hret, true_and]
  apply List.ext_getElem?
  intro i
  by_cases hi : i < (expand mktime tm format).length + 1
  · have hnotin : ∀ j, j < (expand mktime tm format).length →
        cell [((expand mktime tm format).length, NUL)] j = none := by
      intro j hj
      apply cell_eq_none
      intro p hp
      simp only [List.mem_singleton] at hp
      subst hp
      simp only [ne_eq]
      omega
    rw [List.getElem?_map, List.getElem?_range hi, List.getElem?_map]
    simp only [Option.map_some']
    by_cases hi2 : i < (expand mktime tm format).length
    · rw [cell_append_none _ _ _ (hnotin i hi2), hWc i hi2, List.getElem?_append_left hi2,
        List.getElem?_eq_getElem hi2]
      rfl
    · have : i = (expand mktime tm format).length := by omega
      subst this
      rw [cell_append_some _ _ _ NUL (by simp [cell])]
      simp
  · rw [List.getElem?_eq_none (by simp; omega), List.getElem?_eq_none (by simp; omega)]

theorem strftime_fits (mktime : Tm → Int) (max : Nat) (format : List Char) (tm : Tm)
    (hnul : NUL ∉ format) (hcomp : complete format = true) (hsafe : safe mktime tm format)
    (hfit : (expand mktime tm format).length < max) (hmax : (max : Int) ≤ INT_MAX) :
    (strftime mktime max format tm).holds (expand mktime tm format) := by
  exact (strftime_fits_sound mktime max format tm hnul
    (sound_of_safe mktime tm format.length format (le_refl _) hcomp hsafe) hfit hmax).2

/-! ## The loop when the text does not fit -/

theorem scan_short_aux (mktime : Tm → Int) (tm : Tm) (n : Nat) :
    ∀ (f : List Char) (st : St), f.length ≤ n → NUL ∉ f → safe mktime tm f →
      st.chleft ≤ ((expand mktime tm f).length : Int) →
      ∃ st', scan mktime tm f st = Outcome.exit st' ∧ st'.chleft ≤ 0 := by
  induction n with
  | zero =>
    intro f st hlen _ _ hk
    have : f = [] := List.length_eq_zero.mp (by omega)
    subst this
    exact ⟨st, rfl, by simpa [expand] using hk⟩
  | succ n ih =>
    intro f st hlen hnul hsafe hk
    by_cases hpos : st.chleft ≤ 0
    · exact ⟨st, scan_nonpos mktime tm f st hpos, hpos⟩
    · match f, hlen, hnul, hsafe, hk with
      | [], _, _, _, hk => exact ⟨st, rfl, by simpa [expand] using hk⟩
      | [c], _, hnul, _, hk =>
        have hc : c ≠ NUL := by
          intro h
          exact hnul (by simp [h])
        by_cases hp : c = '%'
        · simp only [expand, hp, if_true, List.length_nil, Nat.cast_zero] at hk
          exact absurd hk hpos
        · simp only [expand, hp, if_false, List.length_singleton, Nat.cast_one] at hk
          refine ⟨copy c st, by simp [scan, hc, hp, hpos], ?_⟩
          simp only [copy]
          omega
      | c :: d :: rest, hlen, hnul, hsafe, hk =>
        have hc : c ≠ NUL := by
          intro h
          exact hnul (by simp [h])
        have hd : d ≠ NUL := by
          intro h
          exact hnul (by simp [h])
        by_cases hp : c = '%'
        · subst hp
          simp only [expand, if_true, List.length_append, Nat.cast_add] at hk
          have hnul2 : NUL ∉ rest := fun h => hnul (by simp [h])
          have hsafe2 : safe mktime tm rest := fun x hx => hsafe x (by simp [hx])
          have ha : conv mktime tm d ≠ Action.badIndex := hsafe d (by simp)
          have hlen2 : rest.length ≤ n := by
            simp only [List.length_cons] at hlen
            omega
          have hch : (perform (conv mktime tm d) st).chleft
              = st.chleft - ((actionText (conv mktime tm d)).length : Int) := by
            cases hconv : conv mktime tm d with
            | print text => simp [perform, snprintf, actionText]
            | put x => simp [perform, actionText]
            | skip => simp [perform, actionText]
            | badIndex => simp [perform, actionText]
          rw [scan_conv mktime tm d rest st hd (by omega) ha]
          exact ih rest _ hlen2 hnul2 hsafe2 (by rw [hch]; omega)
        · simp only [expand, hp, if_false, List.length_cons, Nat.cast_add, Nat.cast_one] at hk
          have hnul2 : NUL ∉ d :: rest := fun h => hnul (List.mem_cons_of_mem _ h)
          have hsafe2 : safe mktime tm (d :: rest) :=
            fun x hx => hsafe x (List.mem_cons_of_mem _ hx)
          have hlen2 : (d :: rest).length ≤ n := by
            simp only [List.length_cons] at hlen ⊢
            omega
          rw [scan_lit mktime tm c (d :: rest) st hc hp (by omega)]
          exact ih (d :: rest) _ hlen2 hnul2 hsafe2 (by simp only [copy]; omega)

theorem strftime_short (mktime : Tm → Int) (max : Nat) (format : List Char) (tm : Tm)
    (hnul : NUL ∉ format) (hsafe : safe mktime tm format)
    (hsmall : max ≤ (expand mktime tm format).length) :
    (strftime mktime max format tm).ret = Ret.value 0 := by
  have hw := wrapInt_le max
  obtain ⟨st', hst, hle⟩ := scan_short_aux mktime tm format.length format
    { dest := 0, chleft := wrapInt max, writes := [] } (le_refl _) hnul hsafe
    (by simp only; omega)
  unfold strftime
  rw [hst]
  have : ¬ st'.chleft > 0 := by omega
  simp [this]

/-! ## The code against the directive table, for a valid record -/

theorem nameAt_wday (table : List String) (i : Int) (h0 : 0 ≤ i) (h1 : i ≤ 6)
    (hlen : table.length = 7) : nameAt table i = Action.print (nameOf table i) := by
  have hlt : i.toNat < table.length := by omega
  simp [nameAt, nameOf, h0, List.getElem?_eq_getElem hlt]

theorem nameAt_mon (table : List String) (i : Int) (h0 : 0 ≤ i) (h1 : i ≤ 11)
    (hlen : table.length = 12) : nameAt table i = Action.print (nameOf table i) := by
  have hlt : i.toNat < table.length := by omega
  simp [nameAt, nameOf, h0, List.getElem?_eq_getElem hlt]

theorem daysbeforemonth_bounds (month : Int) (leapyear : Bool) (h0 : 0 ≤ month)
    (h1 : month ≤ 11) :
    0 ≤ clock_daysbeforemonth month leapyear ∧ clock_daysbeforemonth month leapyear ≤ 335 := by
  unfold clock_daysbeforemonth
  interval_cases month <;> cases leapyear <;> decide

theorem conv_valid (mktime : Tm → Int) (tm : Tm) (c : Char) (hv : tm.valid) :
    conv mktime tm c ≠ Action.badIndex ∧
      actionText (conv mktime tm c) = specDirective mktime tm c := by
  obtain ⟨_, _, _, ⟨hd0, hd1⟩, ⟨hm0, hm1⟩, ⟨hw0, hw1⟩, hy0, hy1⟩ := hv
  unfold INT_MIN at hy0
  unfold INT_MAX at hy1
  have hw7 : tm.tm_wday < 7 := by omega
  have hm12 : tm.tm_mon < 12 := by omega
  have hdb := daysbeforemonth_bounds tm.tm_mon (clock_isleapyear tm.tm_year) hm0 hm1
  have e1 : wrapInt (tm.tm_mon + 1) = tm.tm_mon + 1 := by
    unfold wrapInt
    omega
  have e2 : wrapInt (tm.tm_year + 1900) = tm.tm_year + 1900 := by
    unfold wrapInt
    omega
  have e3 : wrapInt (clock_daysbeforemonth tm.tm_mon (clock_isleapyear tm.tm_year) + tm.tm_mday)
      = clock_daysbeforemonth tm.tm_mon (clock_isleapyear tm.tm_year) + tm.tm_mday := by
    unfold wrapInt
    omega
  have n1 := nameAt_wday g_abbrev_wdayname tm.tm_wday hw0 hw1 rfl
  have n2 := nameAt_wday g_wdayname tm.tm_wday hw0 hw1 rfl
  have n3 := nameAt_mon g_abbrev_monthname tm.tm_mon hm0 hm1 rfl
  have n4 := nameAt_mon g_monthname tm.tm_mon hm0 hm1 rfl
  by_cases h0 : c = 'a'
  · subst h0
    simp [conv, specDirective, actionText, hw7, hm12, e1, e2, e3, n1, n2, n3, n4]
  by_cases h1 : c = 'A'
  · subst h1
    simp [conv, specDirective, actionText, hw7, hm12, e1, e2, e3, n1, n2, n3, n4]
  by_cases h2 : c = 'h'
  · subst h2
    simp [conv, specDirective, actionText, hw7, hm12, e1, e2, e3, n1, n2, n3, n4]
  by_cases h3 : c = 'b'
  · subst h3
    simp [conv, specDirective, actionText, hw7, hm12, e1, e2, e3, n1, n2, n3, n4]
  by_cases h4 : c = 'B'
  · subst h4
    simp [conv, specDirective, actionText, hw7, hm12, e1, e2, e3, n1, n2, n3, n4]
  by_cases h5 : c = 'C'
  · subst h5
    simp [conv, specDirective, actionText, hw7, hm12, e1, e2, e3, n1, n2, n3, n4]
  by_cases h6 : c = 'd'
  · subst h6
    simp [conv, specDirective, actionText, hw7, hm12, e1, e2, e3, n1, n2, n3, n4]
  by_cases h7 : c = 'e'
  · subst h7
    simp [conv, specDirective, actionText, hw7, hm12, e1, e2, e3, n1, n2, n3, n4]
  by_cases h8 : c = 'H'
  · subst h8
    simp [conv, specDirective, actionText, hw7, hm12, e1, e2, e3, n1, n2, n3, n4]
  by_cases h9 : c = 'I'
  · subst h9
    simp [conv, specDirective, actionText, hw7, hm12, e1, e2, e3, n1, n2, n3, n4]
  by_cases h10 : c = 'j'
  · subst h10
    simp [conv, specDirective, actionText, hw7, hm12, e1, e2, e3, n1, n2, n3, n4]
  by_cases h11 : c = 'k'
  · subst h11
    simp [conv, specDirective, actionText, hw7, hm12, e1, e2, e3, n1, n2, n3, n4]
  by_cases h12 : c = 'l'
  · subst h12
    simp [conv, specDirective, actionText, hw7, hm12, e1, e2, e3, n1, n2, n3, n4]
  by_cases h13 : c = 'm'
  · subst h13
    simp [conv, specDirective, actionText, hw7, hm12, e1, e2, e3, n1, n2, n3, n4]
  by_cases h14 : c = 'M'
  · subst h14
    simp [conv, specDirective, actionText, hw7, hm12, e1, e2, e3, n1, n2, n3, n4]
  by_cases h15 : c = 'n'
  · subst h15
    simp [conv, specDirective, actionText, hw7, hm12, e1, e2, e3, n1, n2, n3, n4]
  by_cases h16 : c = 'p'
  · subst h16
    simp [conv, specDirective, actionText, hw7, hm12, e1, e2, e3, n1, n2, n3, n4]
  by_cases h17 : c = 'P'
  · subst h17
    simp [conv, specDirective, actionText, hw7, hm12, e1, e2, e3, n1, n2, n3, n4]
  by_cases h18 : c = 'R'
  · subst h18
    simp [conv, specDirective, actionText, hw7, hm12, e1, e2, e3, n1, n2, n3, n4]
  by_cases h19 : c = 's'
  · subst h19
    simp [conv, specDirective, actionText, hw7, hm12, e1, e2, e3, n1, n2, n3, n4]
  by_cases h20 : c = 'S'
  · subst h20
    simp [conv, specDirective, actionText, hw7, hm12, e1, e2, e3, n1, n2, n3, n4]
  by_cases h21 : c = 't'
  · subst h21
    simp [conv, specDirective, actionText, hw7, hm12, e1, e2, e3, n1, n2, n3, n4]
  by_cases h22 : c = 'T'
  · subst h22
    simp [conv, specDirective, actionText, hw7, hm12, e1, e2, e3, n1, n2, n3, n4]
  by_cases h23 : c = 'w'
  · subst h23
    simp [conv, specDirective, actionText, hw7, hm12, e1, e2, e3, n1, n2, n3, n4]
  by_cases h24 : c = 'y'
  · subst h24
    simp [conv, specDirective, actionText, hw7, hm12, e1, e2, e3, n1, n2, n3, n4]
  by_cases h25 : c = 'Y'
  · subst h25
    simp [conv, specDirective, actionText, hw7, hm12, e1, e2, e3, n1, n2, n3, n4]
  by_cases h26 : c = '%'
  · subst h26
    simp [conv, specDirective, actionText, hw7, hm12, e1, e2, e3, n1, n2, n3, n4]
  simp [conv, specDirective, actionText, h0, h1, h2, h3, h4, h5, h6, h7, h8, h9, h10, h11, h12, h13, h14, h15, h16, h17, h18, h19, h20, h21, h22, h23, h24, h25, h26]

theorem expand_valid (mktime : Tm → Int) (tm : Tm) (hv : tm.valid) (n : Nat) :
    ∀ f : List Char, f.length ≤ n → expand mktime tm f = rendered mktime tm f := by
  induction n with
  | zero =>
    intro f hlen
    have : f = [] := List.length_eq_zero.mp (by omega)
    subst this
    rfl
  | succ n ih =>
    intro f hlen
    match f, hlen with
    | [], _ => rfl
    | [c], _ => rfl
    | c :: d :: rest, hlen =>
      simp only [List.length_cons] at hlen
      simp only [expand, rendered]
      rw [ih rest (by omega), ih (d :: rest) (by simp only [List.length_cons]; omega),
        (conv_valid mktime tm d hv).2]

theorem safe_valid (mktime : Tm → Int) (tm : Tm) (hv : tm.valid) (f : List Char) :
    safe mktime tm f :=
  fun c _ => (conv_valid mktime tm c hv).1

/-! ## Every store lies inside the destination -/

theorem copy_bounded (bound : Int) (c : Char) (st : St) (hk : 0 < st.chleft)
    (h : Bounded bound st) : Bounded bound (copy c st) := by
  obtain ⟨hw, hd⟩ := h
  have hd2 := hd hk
  constructor
  · intro p hp
    simp only [copy, List.mem_append, List.mem_singleton] at hp
    rcases hp with hp | hp
    · exact hw p hp
    · subst hp
      simp only
      omega
  · intro _
    simp only [copy]
    push_cast
    omega

theorem perform_bounded (bound : Int) (a : Action) (st : St) (hk : 0 < st.chleft)
    (h : Bounded bound st) : Bounded bound (perform a st) := by
  obtain ⟨hw, hd⟩ := h
  have hd2 := hd hk
  cases a with
  | print text =>
    have hsz : st.chleft.toNat ≠ 0 := by omega
    constructor
    · intro p hp
      simp only [perform, snprintf, hsz, if_false, List.mem_append] at hp
      rcases hp with hp | hp
      · exact hw p hp
      · have hm := (mem_store _ _ _ hp).2
        simp only [List.length_append, List.length_take, List.length_singleton] at hm
        omega
    · intro hpos
      simp only [perform, snprintf] at hpos ⊢
      push_cast
      omega
  | put c =>
    constructor
    · intro p hp
      simp only [perform, List.mem_append, List.mem_singleton] at hp
      rcases hp with hp | hp
      · exact hw p hp
      · subst hp
        simp only
        omega
    · intro _
      simp only [perform]
      push_cast
      omega
  | skip => exact ⟨hw, hd⟩
  | badIndex => exact ⟨hw, hd⟩

theorem scan_bounded (mktime : Tm → Int) (tm : Tm) (bound : Int) (n : Nat) :
    ∀ (f : List Char) (st : St), f.length ≤ n → Bounded bound st →
      Bounded bound (scan mktime tm f st).state := by
  induction n with
  | zero =>
    intro f st hlen h
    have : f = [] := List.length_eq_zero.mp (by omega)
    subst this
    exact h
  | succ n ih =>
    intro f st hlen h
    by_cases hpos : st.chleft ≤ 0
    · rw [scan_nonpos mktime tm f st hpos]
      exact h
    · have hk : 0 < st.chleft := by omega
      match f, hlen with
      | [], _ => exact h
      | [c], _ =>
        simp only [scan]
        split_ifs
        · exact h
        · exact copy_bounded bound c st hk h
        · exact h
      | c :: d :: rest, hlen =>
        simp only [List.length_cons] at hlen
        simp only [scan]
        split_ifs
        · exact h
        · exact ih (d :: rest) _ (by simp only [List.length_cons]; omega)
            (copy_bounded bound c st hk h)
        · exact h
        · split
          · exact h
          · exact ih rest _ (by omega) (perform_bounded bound _ st hk h)

/-! ## Conversions that no case of the switch matches -/

theorem conv_unknown (mktime : Tm → Int) (tm : Tm) (c : Char) (h : c ∉ specifiers) :
    conv mktime tm c = Action.skip := by
  simp only [specifiers, String.toList, List.mem_cons, List.mem_singleton, not_or,
    List.not_mem_nil, not_false_eq_true, and_true] at h
  obtain ⟨h1, h2, h3, h4, h5, h6, h7, h8, h9, h10, h11, h12, h13, h14, h15, h16, h17, h18,
    h19, h20, h21, h22, h23, h24, h25, h26, h27⟩ := h
  simp [conv, h1, h2, h3, h4, h5, h6, h7, h8, h9, h10, h11, h12, h13, h14, h15, h16, h17, h18,
    h19, h20, h21, h22, h23, h24, h25, h26, h27]

theorem scan_cons_NUL (mktime : Tm → Int) (tm : Tm) (rest : List Char) (st : St) :
    scan mktime tm (NUL :: rest) st = Outcome.exit st := by
  cases rest with
  | nil => simp [scan]
  | cons d rest => simp [scan]

theorem scan_drop (mktime : Tm → Int) (tm : Tm) (c : Char) (q : List Char) (hc : c ≠ NUL)
    (hskip : conv mktime tm c = Action.skip) (n : Nat) :
    ∀ (p : List Char) (st : St), p.length ≤ n → complete p = true →
      scan mktime tm (p ++ '%' :: c :: q) st = scan mktime tm (p ++ q) st := by
  have hbase : ∀ st : St, scan mktime tm ('%' :: c :: q) st = scan mktime tm q st := by
    intro st
    by_cases hpos : st.chleft ≤ 0
    · rw [scan_nonpos mktime tm _ st hpos, scan_nonpos mktime tm _ st hpos]
    · rw [scan_conv mktime tm c q st hc (by omega) (by rw [hskip]; exact Action.noConfusion),
        hskip]
      rfl
  induction n with
  | zero =>
    intro p st hlen _
    have : p = [] := List.length_eq_zero.mp (by omega)
    subst this
    exact hbase st
  | succ n ih =>
    intro p st hlen hcomp
    by_cases hpos : st.chleft ≤ 0
    · rw [scan_nonpos mktime tm _ st hpos, scan_nonpos mktime tm _ st hpos]
    · have hk : 0 < st.chleft := by omega
      match p, hlen, hcomp with
      | [], _, _ => exact hbase st
      | [x], _, hcomp =>
        have hx : x ≠ '%' := by simpa [complete] using hcomp
        by_cases hxn : x = NUL
        · subst hxn
          simp only [List.singleton_append, scan_cons_NUL]
        · simp only [List.singleton_append]
          rw [scan_lit mktime tm x _ st hxn hx hk, scan_lit mktime tm x _ st hxn hx hk]
          exact hbase _
      | x :: y :: p', hlen, hcomp =>
        simp only [List.length_cons] at hlen
        simp only [List.cons_append]
        by_cases hxn : x = NUL
        · subst hxn
          simp only [scan_cons_NUL]
        · by_cases hx : x = '%'
          · subst hx
            have hcomp2 : complete p' = true := by simpa [complete] using hcomp
            by_cases hyn : y = NUL
            · simp [scan, hpos, hyn]
            · by_cases hbad : conv mktime tm y = Action.badIndex
              · simp [scan, hpos, hyn, hbad]
              · rw [scan_conv mktime tm y _ st hyn hk hbad, scan_conv mktime tm y _ st hyn hk hbad]
                exact ih p' _ (by omega) hcomp2
          · have hcomp2 : complete (y :: p') = true := by simpa [complete, hx] using hcomp
            rw [scan_lit mktime tm x _ st hxn hx hk, scan_lit mktime tm x _ st hxn hx hk]
            have := ih (y :: p') (copy x st) (by simp only [List.length_cons]; omega) hcomp2
            simpa only [List.cons_append] using this

/-- A weekday index of 7 or more, or a month index of 12 or more, is guarded out:
the name conversion emits nothing and the format renders as without it. -/
theorem large_index_dropped (mktime : Tm → Int) (max : Nat) (p q : List Char) (tm : Tm)
    (c : Char)
    (h : ((c = 'a' ∨ c = 'A') ∧ 7 ≤ tm.tm_wday) ∨
      ((c = 'b' ∨ c = 'h' ∨ c = 'B') ∧ 12 ≤ tm.tm_mon))
    (hp : complete p = true) :
    strftime mktime max (p ++ '%' :: c :: q) tm = strftime mktime max (p ++ q) tm := by
  have hskip : conv mktime tm c = Action.skip ∧ c ≠ NUL := by
    rcases h with ⟨hc | hc, hw⟩ | ⟨hc | hc | hc, hm⟩
    · subst hc
      have : ¬ tm.tm_wday < 7 := by omega
      exact ⟨by simp [conv, this], by decide⟩
    · subst hc
      have : ¬ tm.tm_wday < 7 := by omega
      exact ⟨by simp [conv, this], by decide⟩
    · subst hc
      have : ¬ tm.tm_mon < 12 := by omega
      exact ⟨by simp [conv, this], by decide⟩
    · subst hc
      have : ¬ tm.tm_mon < 12 := by omega
      exact ⟨by simp [conv, this], by decide⟩
    · subst hc
      have : ¬ tm.tm_mon < 12 := by omega
      exact ⟨by simp [conv, this], by decide⟩
  unfold strftime
  rw [scan_drop mktime tm c q hskip.2 hskip.1 p.length p _ (le_refl _) hp]

/-! ## The properties stated by the specification -/

/-- C1: success contract. Let T be `rendered mktime tm format`, the text built from
the directive table. For a format that is a C string (no NUL inside) in which
every percent sign is followed by a specifier character, a record whose fields
are in their valid ranges, and a capacity with `len(T) < max ≤ INT_MAX`,
strftime returns `len(T)`, the destination holds T at the indices below
`len(T)` and the terminating NUL at index `len(T)`. -/
theorem strftime_success (mktime : Tm → Int) (max : Nat) (format : List Char) (tm : Tm)
    (hnul : NUL ∉ format) (hcomplete : complete format = true) (hvalid : tm.valid)
    (hfit : (rendered mktime tm format).length < max) (hmax : (max : Int) ≤ INT_MAX) :
    (strftime mktime max format tm).holds (rendered mktime tm format) := by
  have he := expand_valid mktime tm hvalid format.length format (le_refl _)
  rw [← he] at hfit ⊢
  exact strftime_fits mktime max format tm hnul hcomplete (safe_valid mktime tm hvalid format)
    hfit hmax

theorem strftime_success_witness :
    tmExample.valid ∧
      (strftime mktime0 32 "%Y-%m-%d %H:%M:%S".toList tmExample).holds
        "2024-01-05 08:30:00".toList :=
  ⟨by decide, strftime_success mktime0 32 "%Y-%m-%d %H:%M:%S".toList tmExample
    (by decide) (by decide) (by decide) (by decide) (by decide)⟩

/-- C2: failure contract. With T the rendered text as in C1, for every format that
is a C string, dangling percent sign or not, every valid record and every
capacity `max ≤ len(T)`, strftime returns 0. -/
theorem strftime_too_small (mktime : Tm → Int) (max : Nat) (format : List Char) (tm : Tm)
    (hnul : NUL ∉ format) (hvalid : tm.valid)
    (hsmall : max ≤ (rendered mktime tm format).length) :
    (strftime mktime max format tm).ret = Ret.value 0 := by
  have he := expand_valid mktime tm hvalid format.length format (le_refl _)
  rw [← he] at hsmall
  exact strftime_short mktime max format tm hnul (safe_valid mktime tm hvalid format) hsmall

theorem strftime_too_small_witness :
    10 ≤ (rendered mktime0 tmExample "%Y-%m-%d %H:%M:%S".toList).length ∧
      (strftime mktime0 10 "%Y-%m-%d %H:%M:%S".toList tmExample).ret = Ret.value 0 :=
  ⟨by decide, strftime_too_small mktime0 10 "%Y-%m-%d %H:%M:%S".toList tmExample
    (by decide) (by decide) (by decide)⟩

/-- C3: bounded writes. For every format, record and capacity, each store that
strftime makes (a copied character, a directly stored percent sign, newline or
tab, a byte stored by the bounded printer, the final NUL) has an index below
the capacity. This covers the calls that return 0 and the stores made before an
invalid read. -/
theorem strftime_stores_in_bounds (mktime : Tm → Int) (max : Nat) (format : List Char)
    (tm : Tm) : ∀ p ∈ (strftime mktime max format tm).writes, p.1 < max := by
  have hw := wrapInt_le max
  have hb := scan_bounded mktime tm (max : Int) format.length format
    { dest := 0, chleft := wrapInt max, writes := [] } (le_refl _)
    ⟨by simp, by intro _; simp only; omega⟩
  intro p hp
  unfold strftime at hp
  cases hs : scan mktime tm format { dest := 0, chleft := wrapInt max, writes := [] } with
  | fault f st =>
    rw [hs] at hp hb
    exact_mod_cast hb.1 p hp
  | exit st =>
    rw [hs] at hp hb
    simp only [Outcome.state] at hb
    by_cases hpos : st.chleft > 0
    · simp only [hpos, if_true, List.mem_append, List.mem_singleton] at hp
      rcases hp with hp | hp
      · exact_mod_cast hb.1 p hp
      · subst hp
        have := hb.2 hpos
        simp only
        omega
    · simp only [hpos, if_false] at hp
      exact_mod_cast hb.1 p hp

theorem strftime_stores_in_bounds_witness :
    ((9, NUL) : Nat × Char) ∈ (strftime mktime0 10 "%Y-%m-%d %H:%M:%S".toList tmExample).writes ∧
      ((9, NUL) : Nat × Char).1 < 10 :=
  ⟨by decide, strftime_stores_in_bounds mktime0 10 "%Y-%m-%d %H:%M:%S".toList tmExample
    (9, NUL) (by decide)⟩

/-- C4: the code at weekday index -1 and month index -1, capacity 8. The guards
`tm_wday < 7` and `tm_mon < 12` are signed comparisons and let the negative
index through, so each of the conversions a, A, b, h and B indexes its name
table at -1, outside the table, where the claim says that no lookup is made and
nothing is emitted. -/
theorem negative_index_reads_outside_table :
    (strftime mktime0 8 "%a".toList tmBadIndex).ret = Ret.undefined Fault.tableOverrun ∧
    (strftime mktime0 8 "%A".toList tmBadIndex).ret = Ret.undefined Fault.tableOverrun ∧
    (strftime mktime0 8 "%b".toList tmBadIndex).ret = Ret.undefined Fault.tableOverrun ∧
    (strftime mktime0 8 "%h".toList tmBadIndex).ret = Ret.undefined Fault.tableOverrun ∧
    (strftime mktime0 8 "%B".toList tmBadIndex).ret = Ret.undefined Fault.tableOverrun := by
  decide

/-- C5: unrecognised directives are dropped. For a character `c` that is not NUL
and has no case in the switch, a prefix `p` in which no percent sign is left
dangling, any suffix `q`, any record and any capacity, strftime on
`p ++ "%" ++ c ++ q` returns the same value and makes the same stores as
strftime on `p ++ q`. -/
theorem unrecognised_directive_dropped (mktime : Tm → Int) (max : Nat) (p q : List Char)
    (tm : Tm) (c : Char) (hc : c ≠ NUL) (hspec : c ∉ specifiers) (hp : complete p = true) :
    strftime mktime max (p ++ '%' :: c :: q) tm = strftime mktime max (p ++ q) tm := by
  unfold strftime
  rw [scan_drop mktime tm c q hc (conv_unknown mktime tm c hspec) p.length p _ (le_refl _) hp]

theorem unrecognised_directive_dropped_witness :
    strftime mktime0 8 ("ab".toList ++ '%' :: 'q' :: "cd".toList) tmExample
      = strftime mktime0 8 ("ab".toList ++ "cd".toList) tmExample :=
  unrecognised_directive_dropped mktime0 8 "ab".toList "cd".toList tmExample 'q'
    (by decide) (by decide) (by decide)

/-- C6: the code on a format that ends in a lone percent sign, capacity 8. The
specifier read after the percent sign is the terminator, the pointer is moved
past it, and the next loop test reads the byte after the terminator: on "%" and
on "ab%" the call makes that invalid read, while on "ab" it returns 2. -/
theorem trailing_percent_reads_past_terminator :
    (strftime mktime0 8 "%".toList tmExample).ret = Ret.undefined Fault.formatOverrun ∧
    (strftime mktime0 8 "ab%".toList tmExample).ret = Ret.undefined Fault.formatOverrun ∧
    (strftime mktime0 8 "ab".toList tmExample).ret = Ret.value 2 := by
  decide

/-- C7: the code at midnight and at noon, capacity 8. The conversions I and l
print `tm_hour % 12`, so both hours render "00" and " 0", where the 12-hour
clock of the claim and of the comment in the source has 12. -/
theorem midnight_and_noon_render_zero :
    (strftime mktime0 8 "%I".toList tmMidnight).holds "00".toList ∧
    (strftime mktime0 8 "%l".toList tmMidnight).holds " 0".toList ∧
    (strftime mktime0 8 "%I".toList tmNoon).holds "00".toList ∧
    (strftime mktime0 8 "%l".toList tmNoon).holds " 0".toList := by
  decide

/-- C9: the code on 2000-03-01 (`tm_year = 100`, month index 2, day 1), capacity 8.
The leap-year predicate is applied to `tm_year`, not to `tm_year + 1900`; 100 is
not a leap year while 2000 is, so the conversion j renders "060" where the
ordinal day of the date is 61. -/
theorem yday_ignores_year_base :
    (strftime mktime0 8 "%j".toList tmMarch2000).holds "060".toList ∧
    clock_isleapyear (tmMarch2000.tm_year + 1900) = true ∧
    clock_daysbeforemonth tmMarch2000.tm_mon (clock_isleapyear (tmMarch2000.tm_year + 1900))
      + tmMarch2000.tm_mday = 61 := by
  decide

/-- C10: the code at `tm_year = -1` (the year 1899), capacity 8. The remainder
`tm_year % 100` of C is -1, so the conversion y renders "-1", where the year
1899 reduced modulo 100 is 99. -/
theorem year_before_1900_renders_sign :
    (strftime mktime0 8 "%y".toList tm1899).holds "-1".toList ∧
    (tm1899.tm_year + 1900) % 100 = 99 := by
  decide

/-! ## Decimal digits -/

theorem perform_chleft (a : Action) (st : St) :
    (perform a st).chleft = st.chleft - ((actionText a).length : Int) := by
  cases a with
  | print text => simp [perform, snprintf, actionText]
  | put x => simp [perform, actionText]
  | skip => simp [perform, actionText]
  | badIndex => simp [perform, actionText]

theorem scan_pos_inv (mktime : Tm → Int) (tm : Tm) (n : Nat) :
    ∀ (f : List Char) (st st' : St), f.length ≤ n → NUL ∉ f →
      scan mktime tm f st = Outcome.exit st' → 0 < st'.chleft →
      sound mktime tm f = true ∧ ((expand mktime tm f).length : Int) < st.chleft := by
  induction n with
  | zero =>
    intro f st st' hlen _ hscan hpos
    have : f = [] := List.length_eq_zero.mp (by omega)
    subst this
    simp only [scan, Outcome.exit.injEq] at hscan
    subst hscan
    exact ⟨rfl, by simpa [expand] using hpos⟩
  | succ n ih =>
    intro f st st' hlen hnul hscan hpos
    by_cases hk : st.chleft ≤ 0
    · rw [scan_nonpos mktime tm f st hk] at hscan
      simp only [Outcome.exit.injEq] at hscan
      subst hscan
      omega
    · match f, hlen, hnul, hscan with
      | [], _, _, hscan =>
        simp only [scan, Outcome.exit.injEq] at hscan
        subst hscan
        exact ⟨rfl, by simpa [expand] using hpos⟩
      | [c], _, hnul, hscan =>
        have hc : c ≠ NUL := by
          intro h
          exact hnul (by simp [h])
        by_cases hp : c = '%'
        · subst hp
          simp [scan, hk, percent_ne_NUL] at hscan
        · simp only [scan, hc, hk, hp, if_false, ne_eq, not_false_eq_true, if_true,
            Outcome.exit.injEq] at hscan
          subst hscan
          simp only [copy] at hpos
          refine ⟨by simp [sound, hp], ?_⟩
          simp only [expand, hp, if_false, List.length_singleton, Nat.cast_one]
          omega
      | c :: d :: rest, hlen, hnul, hscan =>
        simp only [List.length_cons] at hlen
        have hc : c ≠ NUL := by
          intro h
          exact hnul (by simp [h])
        have hd : d ≠ NUL := by
          intro h
          exact hnul (by simp [h])
        by_cases hp : c = '%'
        · subst hp
          have hnul2 : NUL ∉ rest := fun h => hnul (by simp [h])
          by_cases hbad : conv mktime tm d = Action.badIndex
          · simp [scan, hk, hd, hbad, percent_ne_NUL] at hscan
          · rw [scan_conv mktime tm d rest st hd (by omega) hbad] at hscan
            obtain ⟨h1, h2⟩ := ih rest _ st' (by omega) hnul2 hscan hpos
            rw [perform_chleft] at h2
            refine ⟨by simp [sound, hbad, h1], ?_⟩
            simp only [expand, if_true, List.length_append, Nat.cast_add]
            omega
        · have hnul2 : NUL ∉ d :: rest := fun h => hnul (List.mem_cons_of_mem _ h)
          rw [scan_lit mktime tm c (d :: rest) st hc hp (by omega)] at hscan
          obtain ⟨h1, h2⟩ := ih (d :: rest) _ st' (by simp only [List.length_cons]; omega)
            hnul2 hscan hpos
          simp only [copy] at h2
          refine ⟨by simpa [sound, hp] using h1, ?_⟩
          simp only [expand, hp, if_false, List.length_cons, Nat.cast_add, Nat.cast_one]
          omega

theorem succeeds_iff (mktime : Tm → Int) (max : Nat) (format : List Char) (tm : Tm)
    (hnul : NUL ∉ format) (hmax : (max : Int) ≤ INT_MAX) :
    succeeds mktime max format tm ↔
      sound mktime tm format = true ∧ (expand mktime tm format).length < max := by
  have hw : wrapInt max = max := wrapInt_of_le max hmax
  constructor
  · intro h
    unfold succeeds at h
    cases hs : scan mktime tm format { dest := 0, chleft := wrapInt max, writes := [] } with
    | fault f st =>
      rw [hs] at h
      exact absurd h (by simp)
    | exit st =>
      rw [hs] at h
      obtain ⟨h1, h2⟩ := scan_pos_inv mktime tm format.length format _ st (le_refl _) hnul hs h
      simp only [hw] at h2
      exact ⟨h1, by exact_mod_cast h2⟩
  · intro h
    exact (strftime_fits_sound mktime max format tm hnul h.1 h.2 hmax).1

theorem expand_cons_lit (mktime : Tm → Int) (tm : Tm) (c : Char) (q : List Char)
    (hp : c ≠ '%') : expand mktime tm (c :: q) = c :: expand mktime tm q := by
  cases q with
  | nil => simp [expand, hp]
  | cons d q => simp [expand, hp]

theorem sound_cons_lit (mktime : Tm → Int) (tm : Tm) (c : Char) (q : List Char)
    (hp : c ≠ '%') : sound mktime tm (c :: q) = sound mktime tm q := by
  cases q with
  | nil => simp [sound, hp]
  | cons d q => simp [sound, hp]

theorem append_complete (mktime : Tm → Int) (tm : Tm) (q : List Char) (n : Nat) :
    ∀ p : List Char, p.length ≤ n → complete p = true →
      expand mktime tm (p ++ q) = expand mktime tm p ++ expand mktime tm q ∧
      sound mktime tm (p ++ q) = (sound mktime tm p && sound mktime tm q) := by
  induction n with
  | zero =>
    intro p hlen _
    have : p = [] := List.length_eq_zero.mp (by omega)
    subst this
    simp [expand, sound]
  | succ n ih =>
    intro p hlen hcomp
    match p, hlen, hcomp with
    | [], _, _ => simp [expand, sound]
    | [c], _, hcomp =>
      have hp : c ≠ '%' := by simpa [complete] using hcomp
      simp [expand_cons_lit, sound_cons_lit, hp, expand, sound]
    | c :: d :: rest, hlen, hcomp =>
      simp only [List.length_cons] at hlen
      by_cases hp : c = '%'
      · subst hp
        have h1 : complete rest = true := by simpa [complete] using hcomp
        obtain ⟨e1, e2⟩ := ih rest (by omega) h1
        have e : ('%' :: d :: rest) ++ q = '%' :: d :: (rest ++ q) := rfl
        rw [e]
        simp only [expand, sound, if_true]
        rw [e1, e2]
        simp only [List.append_assoc, Bool.and_assoc, and_self]
      · have h1 : complete (d :: rest) = true := by simpa [complete, hp] using hcomp
        obtain ⟨e1, e2⟩ := ih (d :: rest) (by simp only [List.length_cons]; omega) h1
        have e : (c :: d :: rest) ++ q = c :: ((d :: rest) ++ q) := rfl
        rw [e, expand_cons_lit mktime tm c _ hp, sound_cons_lit mktime tm c _ hp, e1, e2,
          expand_cons_lit mktime tm c _ hp, sound_cons_lit mktime tm c _ hp]
        simp only [List.cons_append, and_self]

theorem complete_of_sound (mktime : Tm → Int) (tm : Tm) (n : Nat) :
    ∀ f : List Char, f.length ≤ n → sound mktime tm f = true → complete f = true := by
  induction n with
  | zero =>
    intro f hlen _
    have : f = [] := List.length_eq_zero.mp (by omega)
    subst this
    rfl
  | succ n ih =>
    intro f hlen hs
    match f, hlen, hs with
    | [], _, _ => rfl
    | [c], _, hs => simpa [sound, complete] using hs
    | c :: d :: rest, hlen, hs =>
      simp only [List.length_cons] at hlen
      by_cases hp : c = '%'
      · subst hp
        have h1 : conv mktime tm d ≠ Action.badIndex ∧ sound mktime tm rest = true := by
          simpa [sound] using hs
        simpa [complete] using ih rest (by omega) h1.2
      · have h1 : sound mktime tm (d :: rest) = true := by simpa [sound, hp] using hs
        simpa [complete, hp] using ih (d :: rest) (by simp only [List.length_cons]; omega) h1

theorem literal_format (mktime : Tm → Int) (tm : Tm) (f : List Char) (hpct : '%' ∉ f) :
    expand mktime tm f = f ∧ sound mktime tm f = true := by
  induction f with
  | nil => exact ⟨rfl, rfl⟩
  | cons c f ih =>
    have hc : c ≠ '%' := fun h => hpct (by simp [h])
    obtain ⟨e1, e2⟩ := ih (fun h => hpct (List.mem_cons_of_mem _ h))
    rw [expand_cons_lit mktime tm c f hc, sound_cons_lit mktime tm c f hc, e1, e2]
    exact ⟨rfl, rfl⟩

theorem scan_literal (mktime mktime' : Tm → Int) (tm tm' : Tm) (f : List Char)
    (hpct : '%' ∉ f) : ∀ st : St, scan mktime tm f st = scan mktime' tm' f st := by
  induction f with
  | nil =>
    intro st
    rfl
  | cons c f ih =>
    intro st
    have hc : c ≠ '%' := fun h => hpct (by simp [h])
    by_cases hn : c = NUL
    · subst hn
      rw [scan_cons_NUL, scan_cons_NUL]
    · by_cases hk : st.chleft ≤ 0
      · rw [scan_nonpos mktime tm _ st hk, scan_nonpos mktime' tm' _ st hk]
      · rw [scan_lit mktime tm c f st hn hc (by omega), scan_lit mktime' tm' c f st hn hc (by omega)]
        exact ih (fun h => hpct (List.mem_cons_of_mem _ h)) _

/-! ## Claims on single characters and on concatenation -/

/-- C17: ordinary characters are copied without conversion. For a format that is a
C string without a percent sign and a capacity with `len(f) < max ≤ INT_MAX`,
strftime returns `len(f)`, the buffer holds the format followed by NUL, and the
whole result is the same for every time record. -/
theorem ordinary_characters_copied (mktime : Tm → Int) (max : Nat) (f : List Char) (tm : Tm)
    (hnul : NUL ∉ f) (hpct : '%' ∉ f) (hfit : f.length < max)
    (hmax : (max : Int) ≤ INT_MAX) :
    (strftime mktime max f tm).holds f ∧
    ∀ (mktime' : Tm → Int) (tm' : Tm), strftime mktime' max f tm' = strftime mktime max f tm := by
  obtain ⟨e1, e2⟩ := literal_format mktime tm f hpct
  constructor
  · have := (strftime_fits_sound mktime max f tm hnul e2 (by rw [e1]; exact hfit) hmax).2
    rwa [e1] at this
  · intro mktime' tm'
    unfold strftime
    rw [scan_literal mktime' mktime tm' tm f hpct]

theorem ordinary_characters_copied_witness :
    (strftime mktime0 8 "hello".toList tmExample).holds "hello".toList :=
  (ordinary_characters_copied mktime0 8 "hello".toList tmExample (by decide) (by decide)
    (by decide) (by decide)).1

/-- C20: rendering distributes over concatenation. For C strings `f` and `g`, `f`
with no dangling percent sign, a valid record and a capacity `max ≤ INT_MAX` for
which the call on `f ++ g` succeeds, the calls on `f` and on `g` with the same
capacity succeed too, the text produced for `f ++ g` is the text for `f`
followed by the text for `g`, and the value returned for `f ++ g` is the sum of
the values returned for `f` and for `g`. -/
theorem rendering_distributes (mktime : Tm → Int) (max : Nat) (f g : List Char) (tm : Tm)
    (hf : NUL ∉ f) (hg : NUL ∉ g) (hcf : complete f = true) (hvalid : tm.valid)
    (hmax : (max : Int) ≤ INT_MAX) (hs : succeeds mktime max (f ++ g) tm) :
    succeeds mktime max f tm ∧ succeeds mktime max g tm ∧
    (strftime mktime max f tm).holds (rendered mktime tm f) ∧
    (strftime mktime max g tm).holds (rendered mktime tm g) ∧
    (strftime mktime max (f ++ g) tm).holds (rendered mktime tm f ++ rendered mktime tm g) ∧
    (strftime mktime max f tm).ret = Ret.value (rendered mktime tm f).length ∧
    (strftime mktime max g tm).ret = Ret.value (rendered mktime tm g).length ∧
    (strftime mktime max (f ++ g) tm).ret
      = Ret.value ((rendered mktime tm f).length + (rendered mktime tm g).length) := by
  have hnul : NUL ∉ f ++ g := by
    intro hm
    rcases List.mem_append.mp hm with hm | hm
    · exact hf hm
    · exact hg hm
  obtain ⟨hsound, hlen⟩ := (succeeds_iff mktime max _ tm hnul hmax).mp hs
  obtain ⟨e1, e2⟩ := append_complete mktime tm g f.length f (le_refl _) hcf
  have rf := expand_valid mktime tm hvalid f.length f (le_refl _)
  have rg := expand_valid mktime tm hvalid g.length g (le_refl _)
  have hall := (strftime_fits_sound mktime max _ tm hnul hsound hlen hmax).2
  rw [e1] at hlen hall
  rw [e2] at hsound
  simp only [Bool.and_eq_true] at hsound
  simp only [List.length_append] at hlen
  have sf := strftime_fits_sound mktime max f tm hf hsound.1 (by omega) hmax
  have sg := strftime_fits_sound mktime max g tm hg hsound.2 (by omega) hmax
  rw [rf, rg] at hall
  rw [rf] at sf
  rw [rg] at sg
  refine ⟨sf.1, sg.1, sf.2, sg.2, hall, sf.2.1, sg.2.1, ?_⟩
  rw [hall.1, List.length_append]

theorem rendering_distributes_witness :
    (strftime mktime0 32 "%Y-%m-%d".toList tmExample).holds "2024-01-05".toList ∧
    (strftime mktime0 32 " %H:%M:%S".toList tmExample).holds " 08:30:00".toList ∧
    (strftime mktime0 32 ("%Y-%m-%d".toList ++ " %H:%M:%S".toList) tmExample).holds
      ("2024-01-05".toList ++ " 08:30:00".toList) :=
  ⟨(rendering_distributes mktime0 32 "%Y-%m-%d".toList " %H:%M:%S".toList tmExample
      (by decide) (by decide) (by decide) (by decide) (by decide) (by decide)).2.2.1,
   (rendering_distributes mktime0 32 "%Y-%m-%d".toList " %H:%M:%S".toList tmExample
      (by decide) (by decide) (by decide) (by decide) (by decide) (by decide)).2.2.2.1,
   (rendering_distributes mktime0 32 "%Y-%m-%d".toList " %H:%M:%S".toList tmExample
      (by decide) (by decide) (by decide) (by decide) (by decide) (by decide)).2.2.2.2.1⟩

/-! ## The states at the head of the loop -/

theorem heads_spec (mktime : Tm → Int) (tm : Tm) (bound : Int) (n : Nat) :
    ∀ (f : List Char) (st : St), f.length ≤ n → (st.dest : Int) + st.chleft = bound →
      ∃ tl, heads mktime tm f st = st :: tl ∧
        (∀ s ∈ st :: tl, (s.dest : Int) + s.chleft = bound) ∧
        List.Chain' (fun a b : St => b.chleft ≤ a.chleft) (st :: tl) ∧
        (∀ s ∈ (st :: tl).dropLast, 0 < s.chleft) ∧
        (st :: tl).getLast? = some (scan mktime tm f st).state := by
  have one : ∀ st : St, (st.dest : Int) + st.chleft = bound →
      (∀ s ∈ [st], (s.dest : Int) + s.chleft = bound) ∧
        List.Chain' (fun a b : St => b.chleft ≤ a.chleft) [st] ∧
        (∀ s ∈ [st].dropLast, 0 < s.chleft) ∧ [st].getLast? = some st := by
    intro st h
    exact ⟨by simpa using h, List.chain'_singleton _, by simp, rfl⟩
  have two : ∀ st : St, (st.dest : Int) + st.chleft = bound → 0 < st.chleft →
      (∀ s ∈ [st, st], (s.dest : Int) + s.chleft = bound) ∧
        List.Chain' (fun a b : St => b.chleft ≤ a.chleft) [st, st] ∧
        (∀ s ∈ [st, st].dropLast, 0 < s.chleft) ∧ [st, st].getLast? = some st := by
    intro st h hk
    refine ⟨by simpa using h, by simp, by simpa using hk, rfl⟩
  have step : ∀ (st st1 : St) (tl : List St) (o : St),
      (st.dest : Int) + st.chleft = bound → 0 < st.chleft → st1.chleft ≤ st.chleft →
      ((∀ s ∈ st1 :: tl, (s.dest : Int) + s.chleft = bound) ∧
        List.Chain' (fun a b : St => b.chleft ≤ a.chleft) (st1 :: tl) ∧
        (∀ s ∈ (st1 :: tl).dropLast, 0 < s.chleft) ∧ (st1 :: tl).getLast? = some o) →
      ((∀ s ∈ st :: st1 :: tl, (s.dest : Int) + s.chleft = bound) ∧
        List.Chain' (fun a b : St => b.chleft ≤ a.chleft) (st :: st1 :: tl) ∧
        (∀ s ∈ (st :: st1 :: tl).dropLast, 0 < s.chleft) ∧
        (st :: st1 :: tl).getLast? = some o) := by
    intro st st1 tl o h hk hle ⟨a, b, c, d⟩
    refine ⟨?_, ?_, ?_, ?_⟩
    · intro s hs
      rcases List.mem_cons.mp hs with hs | hs
      · subst hs
        exact h
      · exact a s hs
    · exact List.Chain'.cons hle b
    · intro s hs
      rw [List.dropLast_cons₂] at hs
      rcases List.mem_cons.mp hs with hs | hs
      · subst hs
        exact hk
      · exact c s hs
    · rw [List.getLast?_cons_cons]
      exact d
  induction n with
  | zero =>
    intro f st hlen h
    have : f = [] := List.length_eq_zero.mp (by omega)
    subst this
    exact ⟨[], rfl, one st h⟩
  | succ n ih =>
    intro f st hlen h
    by_cases hpos : st.chleft ≤ 0
    · refine ⟨[], ?_, ?_⟩
      · match f with
        | [] => rfl
        | [c] => simp [heads, hpos]
        | c :: d :: rest => simp [heads, hpos]
      · rw [scan_nonpos mktime tm f st hpos]
        exact one st h
    · have hk : 0 < st.chleft := by omega
      match f, hlen with
      | [], _ => exact ⟨[], rfl, one st h⟩
      | [c], _ =>
        by_cases hn : c = NUL
        · exact ⟨[], by simp [heads, hn], by simpa [scan, hn, Outcome.state] using one st h⟩
        · by_cases hp : c = '%'
          · subst hp
            refine ⟨[st], by simp [heads, hn, hpos], ?_⟩
            simpa [scan, hn, hpos, Outcome.state] using two st h hk
          · refine ⟨[copy c st], by simp [heads, hn, hpos, hp], ?_⟩
            have h1 : ((copy c st).dest : Int) + (copy c st).chleft = bound := by
              simp only [copy]
              push_cast
              omega
            have := step st (copy c st) [] (copy c st) h hk (by simp only [copy]; omega)
              (one (copy c st) h1)
            simpa [scan, hn, hpos, hp, Outcome.state] using this
      | c :: d :: rest, hlen =>
        simp only [List.length_cons] at hlen
        by_cases hn : c = NUL
        · exact ⟨[], by simp [heads, hn], by simpa [scan, hn, Outcome.state] using one st h⟩
        · by_cases hp : c = '%'
          · subst hp
            by_cases hd : d = NUL
            · refine ⟨[st], by simp [heads, hn, hpos, hd], ?_⟩
              simpa [scan, hn, hpos, hd, Outcome.state] using two st h hk
            · by_cases hbad : conv mktime tm d = Action.badIndex
              · refine ⟨[], by simp [heads, hn, hpos, hd, hbad], ?_⟩
                simpa [scan, hn, hpos, hd, hbad, Outcome.state] using one st h
              · have h1 : ((perform (conv mktime tm d) st).dest : Int)
                    + (perform (conv mktime tm d) st).chleft = bound := by
                  rw [perform_chleft]
                  cases hconv : conv mktime tm d with
                  | print text =>
                    simp only [perform, snprintf, actionText]
                    push_cast
                    omega
                  | put x =>
                    simp only [perform, actionText, List.length_singleton]
                    push_cast
                    omega
                  | skip =>
                    simp only [perform, actionText, List.length_nil]
                    push_cast
                    omega
                  | badIndex => exact absurd hconv hbad
                obtain ⟨tl, e, hrest⟩ := ih rest (perform (conv mktime tm d) st) (by omega) h1
                have hle : (perform (conv mktime tm d) st).chleft ≤ st.chleft := by
                  rw [perform_chleft]
                  omega
                have hheads : heads mktime tm ('%' :: d :: rest) st
                    = st :: heads mktime tm rest (perform (conv mktime tm d) st) := by
                  simp only [heads, percent_ne_NUL, hpos, hd, if_false, ne_eq,
                    not_true_eq_false]
                refine ⟨perform (conv mktime tm d) st :: tl, by rw [hheads, e], ?_⟩
                rw [scan_conv mktime tm d rest st hd hk hbad]
                exact step st _ tl _ h hk hle hrest
          · have h1 : ((copy c st).dest : Int) + (copy c st).chleft = bound := by
              simp only [copy]
              push_cast
              omega
            obtain ⟨tl, e, hrest⟩ := ih (d :: rest) (copy c st)
              (by simp only [List.length_cons]; omega) h1
            refine ⟨copy c st :: tl, by simp [heads, hn, hpos, hp, e], ?_⟩
            rw [scan_lit mktime tm c (d :: rest) st hn hp hk]
            exact step st _ tl _ h hk (by simp only [copy]; omega) hrest

theorem fault_state_pos (mktime : Tm → Int) (tm : Tm) (n : Nat) :
    ∀ (f : List Char) (st st' : St) (x : Fault), f.length ≤ n →
      scan mktime tm f st = Outcome.fault x st' → 0 < st'.chleft := by
  induction n with
  | zero =>
    intro f st st' x hlen hs
    have : f = [] := List.length_eq_zero.mp (by omega)
    subst this
    simp [scan] at hs
  | succ n ih =>
    intro f st st' x hlen hs
    by_cases hpos : st.chleft ≤ 0
    · rw [scan_nonpos mktime tm f st hpos] at hs
      exact absurd hs (by simp)
    · have hk : 0 < st.chleft := by omega
      match f, hlen, hs with
      | [], _, hs => simp [scan] at hs
      | [c], _, hs =>
        simp only [scan, hpos, if_false] at hs
        split_ifs at hs
        simp only [Outcome.fault.injEq] at hs
        rw [← hs.2]
        exact hk
      | c :: d :: rest, hlen, hs =>
        simp only [List.length_cons] at hlen
        simp only [scan, hpos, if_false] at hs
        split_ifs at hs
        · exact ih (d :: rest) _ st' x (by simp only [List.length_cons]; omega) hs
        · simp only [Outcome.fault.injEq] at hs
          rw [← hs.2]
          exact hk
        · split at hs
          · simp only [Outcome.fault.injEq] at hs
            rw [← hs.2]
            exact hk
          · exact ih rest _ st' x (by omega) hs

/-- C18: the cursor and the counter. For every format, record and capacity
`max ≤ INT_MAX`, in every state in which the loop test is evaluated, the last one
(loop exit) included, the offset `dest - s` plus `chleft` equals `max`; from one
such state to the next `chleft` does not increase; every such state but the
last has `chleft > 0`, so the body is entered only with room left; and when the
loop ends with `chleft ≤ 0` the function returns 0. -/
theorem cursor_invariant (mktime : Tm → Int) (max : Nat) (format : List Char) (tm : Tm)
    (hmax : (max : Int) ≤ INT_MAX) :
    (∀ s ∈ heads mktime tm format { dest := 0, chleft := wrapInt max, writes := [] },
      (s.dest : Int) + s.chleft = max) ∧
    List.Chain' (fun a b : St => b.chleft ≤ a.chleft)
      (heads mktime tm format { dest := 0, chleft := wrapInt max, writes := [] }) ∧
    (∀ s ∈ (heads mktime tm format { dest := 0, chleft := wrapInt max, writes := [] }).dropLast,
      0 < s.chleft) ∧
    (heads mktime tm format { dest := 0, chleft := wrapInt max, writes := [] }).getLast?
      = some (scan mktime tm format { dest := 0, chleft := wrapInt max, writes := [] }).state ∧
    ((scan mktime tm format { dest := 0, chleft := wrapInt max, writes := [] }).state.chleft ≤ 0 →
      (strftime mktime max format tm).ret = Ret.value 0) := by
  have hw : wrapInt max = max := wrapInt_of_le max hmax
  obtain ⟨tl, e, h1, h2, h3, h4⟩ := heads_spec mktime tm (max : Int) format.length format
    { dest := 0, chleft := wrapInt max, writes := [] } (le_refl _) (by simp [hw])
  rw [e]
  refine ⟨h1, h2, h3, h4, ?_⟩
  intro hle
  unfold strftime
  cases hs : scan mktime tm format { dest := 0, chleft := wrapInt max, writes := [] } with
  | fault x st =>
    rw [hs] at hle
    have := fault_state_pos mktime tm format.length format _ st x (le_refl _) hs
    simp only [Outcome.state] at hle
    omega
  | exit st =>
    rw [hs] at hle
    simp only [Outcome.state] at hle
    have : ¬ st.chleft > 0 := by omega
    simp [this]

theorem cursor_invariant_witness :
    (strftime mktime0 10 "%Y-%m-%d %H:%M:%S".toList tmExample).ret = Ret.value 0 :=
  (cursor_invariant mktime0 10 "%Y-%m-%d %H:%M:%S".toList tmExample (by decide)).2.2.2.2
    (by decide)

/-- C19: the code at a capacity above INT_MAX. With `max = 2147483648` the
conversion `int chleft = max` leaves a negative counter, the loop is never
entered and the call on the format "a" stores nothing and returns 0, although
the text and its terminator fit; with `max = 4294967301` the counter starts at
5 and the call returns 4294967297, where the length of the text is 1. -/
theorem large_capacity_truncated :
    (strftime mktime0 2147483648 "a".toList tmExample).ret = Ret.value 0 ∧
    (strftime mktime0 2147483648 "a".toList tmExample).writes = [] ∧
    (strftime mktime0 4294967301 "a".toList tmExample).ret = Ret.value 4294967297 := by
  decide

/-! ## Formats that differ in how a text is split into conversions -/

theorem sameCells_append_right (a b w : List (Nat × Char)) (h : sameCells a b) :
    sameCells (a ++ w) (b ++ w) := by
  intro i
  cases hw : cell w i with
  | none => rw [cell_append_none _ _ _ hw, cell_append_none _ _ _ hw, h i]
  | some c => rw [cell_append_some _ _ _ c hw, cell_append_some _ _ _ c hw]

theorem sameCells_append_left (w a b : List (Nat × Char)) (h : sameCells a b) :
    sameCells (w ++ a) (w ++ b) := by
  intro i
  cases hb : cell b i with
  | none =>
    have ha : cell a i = none := by rw [h i, hb]
    rw [cell_append_none _ _ _ ha, cell_append_none _ _ _ hb]
  | some c =>
    have ha : cell a i = some c := by rw [h i, hb]
    rw [cell_append_some _ _ _ c ha, cell_append_some _ _ _ c hb]

theorem sameCells_overwrite (x : Nat) (c1 c2 : Char) :
    sameCells [(x, c1), (x, c2)] [(x, c2)] := by
  intro i
  by_cases h : x = i <;> simp [cell, h]

theorem store_append (d : Nat) (a b : List Char) :
    store d (a ++ b) = store d a ++ store (d + a.length) b := by
  induction a generalizing d with
  | nil => simp [store]
  | cons x a ih =>
    have e : (x :: a) ++ b = x :: (a ++ b) := rfl
    rw [e]
    simp only [store, List.length_cons, List.cons_append]
    rw [ih (d + 1), show d + 1 + a.length = d + (a.length + 1) by omega]

theorem alike_refl (o : Outcome) : alike o o := by
  cases o with
  | exit st => exact Or.inr ⟨rfl, rfl, fun _ => rfl⟩
  | fault f st => exact ⟨rfl, fun _ => rfl⟩

theorem alike_trans (a b c : Outcome) (h1 : alike a b) (h2 : alike b c) : alike a c := by
  cases a with
  | exit sa =>
    cases b with
    | exit sb =>
      cases c with
      | exit sc =>
        simp only [alike] at h1 h2 ⊢
        rcases h1 with ⟨p1, p2⟩ | ⟨p1, p2, p3⟩
        · rcases h2 with ⟨q1, q2⟩ | ⟨q1, q2, q3⟩
          · exact Or.inl ⟨p1, q2⟩
          · exact Or.inl ⟨p1, by omega⟩
        · rcases h2 with ⟨q1, q2⟩ | ⟨q1, q2, q3⟩
          · exact Or.inl ⟨by omega, q2⟩
          · exact Or.inr ⟨p1.trans q1, p2.trans q2, fun i => (p3 i).trans (q3 i)⟩
      | fault fc sc => simp [alike] at h2
    | fault fb sb => simp [alike] at h1
  | fault fa sa =>
    cases b with
    | exit sb => simp [alike] at h1
    | fault fb sb =>
      cases c with
      | exit sc => simp [alike] at h2
      | fault fc sc =>
        simp only [alike] at h1 h2 ⊢
        exact ⟨h1.1.trans h2.1, fun i => (h1.2 i).trans (h2.2 i)⟩

theorem perform_writes (a : Action) (d : Nat) (k : Int) :
    ∃ d' k' W, ∀ w, perform a { dest := d, chleft := k, writes := w }
      = { dest := d', chleft := k', writes := w ++ W } := by
  cases a with
  | print text =>
    exact ⟨d + (snprintf d k.toNat text).2.toNat, k - (snprintf d k.toNat text).2,
      (snprintf d k.toNat text).1, fun w => rfl⟩
  | put x => exact ⟨d + 1, k - 1, [(d, x)], fun w => rfl⟩
  | skip => exact ⟨d, k, [], fun w => by simp [perform]⟩
  | badIndex => exact ⟨d, k, [], fun w => by simp [perform]⟩

theorem scan_sameCells (mktime : Tm → Int) (tm : Tm) (n : Nat) :
    ∀ (f : List Char) (d : Nat) (k : Int) (w1 w2 : List (Nat × Char)), f.length ≤ n →
      sameCells w1 w2 →
      alike (scan mktime tm f { dest := d, chleft := k, writes := w1 })
        (scan mktime tm f { dest := d, chleft := k, writes := w2 }) := by
  induction n with
  | zero =>
    intro f d k w1 w2 hlen h
    have : f = [] := List.length_eq_zero.mp (by omega)
    subst this
    exact Or.inr ⟨rfl, rfl, h⟩
  | succ n ih =>
    intro f d k w1 w2 hlen h
    have hexit : alike (Outcome.exit { dest := d, chleft := k, writes := w1 })
        (Outcome.exit { dest := d, chleft := k, writes := w2 }) := Or.inr ⟨rfl, rfl, h⟩
    have hfault : ∀ x : Fault, alike (Outcome.fault x { dest := d, chleft := k, writes := w1 })
        (Outcome.fault x { dest := d, chleft := k, writes := w2 }) := fun x => ⟨rfl, h⟩
    by_cases hpos : k ≤ 0
    · rw [scan_nonpos mktime tm f _ hpos, scan_nonpos mktime tm f _ hpos]
      exact hexit
    · have hk : 0 < k := by omega
      match f, hlen with
      | [], _ => exact hexit
      | [c], _ =>
        by_cases hn : c = NUL
        · simpa [scan, hn] using hexit
        · by_cases hp : c = '%'
          · simpa [scan, hn, hp, hpos] using hfault Fault.formatOverrun
          · simp only [scan, hn, hpos, hp, if_false, ne_eq, not_false_eq_true, if_true, copy]
            exact Or.inr ⟨rfl, rfl, sameCells_append_right _ _ _ h⟩
      | c :: e :: rest, hlen =>
        simp only [List.length_cons] at hlen
        by_cases hn : c = NUL
        · simpa [scan, hn] using hexit
        · by_cases hp : c = '%'
          · subst hp
            by_cases hd : e = NUL
            · simpa [scan, hn, hpos, hd] using hfault Fault.formatOverrun
            · by_cases hbad : conv mktime tm e = Action.badIndex
              · simpa [scan, hn, hpos, hd, hbad] using hfault Fault.tableOverrun
              · rw [scan_conv mktime tm e rest _ hd hk hbad,
                  scan_conv mktime tm e rest _ hd hk hbad]
                obtain ⟨d', k', W, hW⟩ := perform_writes (conv mktime tm e) d k
                rw [hW w1, hW w2]
                exact ih rest d' k' _ _ (by omega) (sameCells_append_right _ _ _ h)
          · rw [scan_lit mktime tm c (e :: rest) _ hn hp hk,
              scan_lit mktime tm c (e :: rest) _ hn hp hk]
            simp only [copy]
            exact ih (e :: rest) _ _ _ _ (by simp only [List.length_cons]; omega)
              (sameCells_append_right _ _ _ h)

theorem scan_prefix_alike (mktime : Tm → Int) (tm : Tm) (x y : List Char)
    (hxy : ∀ st : St, alike (scan mktime tm x st) (scan mktime tm y st)) (n : Nat) :
    ∀ (p : List Char) (st : St), p.length ≤ n → complete p = true →
      alike (scan mktime tm (p ++ x) st) (scan mktime tm (p ++ y) st) := by
  induction n with
  | zero =>
    intro p st hlen _
    have : p = [] := List.length_eq_zero.mp (by omega)
    subst this
    exact hxy st
  | succ n ih =>
    intro p st hlen hcomp
    by_cases hpos : st.chleft ≤ 0
    · rw [scan_nonpos mktime tm _ st hpos, scan_nonpos mktime tm _ st hpos]
      exact alike_refl _
    · have hk : 0 < st.chleft := by omega
      match p, hlen, hcomp with
      | [], _, _ => exact hxy st
      | [c], _, hcomp =>
        have hc : c ≠ '%' := by simpa [complete] using hcomp
        by_cases hn : c = NUL
        · subst hn
          simp only [List.singleton_append, scan_cons_NUL]
          exact alike_refl _
        · simp only [List.singleton_append]
          rw [scan_lit mktime tm c _ st hn hc hk, scan_lit mktime tm c _ st hn hc hk]
          exact hxy _
      | c :: d :: p', hlen, hcomp =>
        simp only [List.length_cons] at hlen
        simp only [List.cons_append]
        by_cases hn : c = NUL
        · subst hn
          simp only [scan_cons_NUL]
          exact alike_refl _
        · by_cases hc : c = '%'
          · subst hc
            have hcomp2 : complete p' = true := by simpa [complete] using hcomp
            by_cases hdn : d = NUL
            · simp only [scan, hpos, hdn, percent_ne_NUL, if_false, if_true, ne_eq,
                not_true_eq_false]
              exact alike_refl _
            · by_cases hbad : conv mktime tm d = Action.badIndex
              · simp only [scan, hpos, hdn, hbad, percent_ne_NUL, if_false, ne_eq,
                  not_true_eq_false]
                exact alike_refl _
              · rw [scan_conv mktime tm d _ st hdn hk hbad, scan_conv mktime tm d _ st hdn hk hbad]
                exact ih p' _ (by omega) hcomp2
          · have hcomp2 : complete (d :: p') = true := by simpa [complete, hc] using hcomp
            rw [scan_lit mktime tm c _ st hn hc hk, scan_lit mktime tm c _ st hn hc hk]
            have := ih (d :: p') (copy c st) (by simp only [List.length_cons]; omega) hcomp2
            simpa only [List.cons_append] using this

theorem perform_print_fits (text : List Char) (st : St)
    (h : (text.length : Int) < st.chleft) :
    perform (Action.print text) st
      = { dest := st.dest + text.length, chleft := st.chleft - text.length,
          writes := st.writes ++ store st.dest (text ++ [NUL]) } := by
  have hsz : st.chleft.toNat ≠ 0 := by omega
  have htake : text.take (st.chleft.toNat - 1) = text := by
    apply List.take_of_length_le
    omega
  simp [perform, snprintf, hsz, htake]

theorem scan_split (mktime : Tm → Int) (tm : Tm) (c1 c2 c3 : Char) (a b : List Char)
    (h1 : c1 ≠ NUL) (h2 : c2 ≠ NUL) (h3 : c3 ≠ NUL)
    (e1 : conv mktime tm c1 = Action.print (a ++ ':' :: b))
    (e2 : conv mktime tm c2 = Action.print a) (e3 : conv mktime tm c3 = Action.print b)
    (q : List Char) :
    ∀ st : St, alike (scan mktime tm ('%' :: c1 :: q) st)
      (scan mktime tm ('%' :: c2 :: ':' :: '%' :: c3 :: q) st) := by
  intro st
  by_cases hpos : st.chleft ≤ 0
  · rw [scan_nonpos mktime tm _ st hpos, scan_nonpos mktime tm _ st hpos]
    exact alike_refl _
  · have hk : 0 < st.chleft := by omega
    have lenR : ((a ++ ':' :: b).length : Int) = a.length + 1 + b.length := by
      simp only [List.length_append, List.length_cons]
      push_cast
      omega
    rw [scan_conv mktime tm c1 q st h1 hk (by rw [e1]; exact Action.noConfusion), e1,
      scan_conv mktime tm c2 _ st h2 hk (by rw [e2]; exact Action.noConfusion), e2]
    have cR : (perform (Action.print (a ++ ':' :: b)) st).chleft
        = st.chleft - (a.length + 1 + b.length) := by
      rw [perform_chleft, actionText, lenR]
    have cA : (perform (Action.print a) st).chleft = st.chleft - a.length := by
      rw [perform_chleft, actionText]
    by_cases a1 : (perform (Action.print a) st).chleft ≤ 0
    · rw [scan_nonpos mktime tm _ _ a1, scan_nonpos mktime tm _ _ (by rw [cR]; omega)]
      exact Or.inl ⟨by rw [cR]; omega, a1⟩
    · rw [scan_lit mktime tm ':' _ _ (by decide) (by decide) (by omega)]
      have cC : (copy ':' (perform (Action.print a) st)).chleft
          = st.chleft - a.length - 1 := by
        simp only [copy, cA]
      by_cases a2 : (copy ':' (perform (Action.print a) st)).chleft ≤ 0
      · rw [scan_nonpos mktime tm _ _ a2, scan_nonpos mktime tm _ _ (by rw [cR]; omega)]
        exact Or.inl ⟨by rw [cR]; omega, a2⟩
      · rw [scan_conv mktime tm c3 q _ h3 (by omega) (by rw [e3]; exact Action.noConfusion), e3]
        have cB : (perform (Action.print b) (copy ':' (perform (Action.print a) st))).chleft
            = st.chleft - a.length - 1 - b.length := by
          rw [perform_chleft, actionText, cC]
        by_cases a3 : (perform (Action.print (a ++ ':' :: b)) st).chleft ≤ 0
        · rw [scan_nonpos mktime tm _ _ a3, scan_nonpos mktime tm _ _ (by rw [cB]; omega)]
          exact Or.inl ⟨a3, by rw [cB]; omega⟩
        · rw [cR] at a3
          have hA := perform_print_fits a st (by omega)
          have hR := perform_print_fits (a ++ ':' :: b) st (by rw [lenR]; omega)
          rw [hR, hA]
          have hB := perform_print_fits b
            (copy ':' { dest := st.dest + a.length, chleft := st.chleft - a.length,
                        writes := st.writes ++ store st.dest (a ++ [NUL]) })
            (by simp only [copy]; omega)
          rw [hB]
          simp only [copy]
          have ed : st.dest + a.length + 1 + b.length = st.dest + (a ++ ':' :: b).length := by
            simp only [List.length_append, List.length_cons]
            omega
          have ek : st.chleft - (a.length : Int) - 1 - (b.length : Int)
              = st.chleft - ((a ++ ':' :: b).length : Int) := by
            rw [lenR]
            omega
          rw [ed, ek]
          apply scan_sameCells mktime tm q.length q _ _ _ _ (le_refl _)
          have s1 : store st.dest ((a ++ ':' :: b) ++ [NUL])
              = store st.dest a ++ ([(st.dest + a.length, ':')]
                  ++ store (st.dest + a.length + 1) (b ++ [NUL])) := by
            rw [List.append_assoc, store_append]
            rfl
          have s2 : store st.dest (a ++ [NUL])
              = store st.dest a ++ [(st.dest + a.length, NUL)] := by
            rw [store_append]
            rfl
          rw [s1, s2]
          simp only [List.append_assoc]
          apply sameCells_append_left
          apply sameCells_append_left
          have := sameCells_append_right _ _ (store (st.dest + a.length + 1) (b ++ [NUL]))
            (sameCells_overwrite (st.dest + a.length) NUL ':')
          intro i
          exact (this i).symm

theorem alike_results (mktime : Tm → Int) (max : Nat) (x y : List Char) (tm : Tm)
    (h : alike (scan mktime tm x { dest := 0, chleft := wrapInt max, writes := [] })
      (scan mktime tm y { dest := 0, chleft := wrapInt max, writes := [] })) :
    (strftime mktime max x tm).ret = (strftime mktime max y tm).ret ∧
    (succeeds mktime max x tm ↔ succeeds mktime max y tm) ∧
    (succeeds mktime max x tm →
      ∀ i, cell (strftime mktime max x tm).writes i = cell (strftime mktime max y tm).writes i) := by
  unfold strftime succeeds
  cases hx : scan mktime tm x { dest := 0, chleft := wrapInt max, writes := [] } with
  | exit sx =>
    cases hy : scan mktime tm y { dest := 0, chleft := wrapInt max, writes := [] } with
    | exit sy =>
      rw [hx, hy] at h
      simp only [alike] at h
      rcases h with ⟨p1, p2⟩ | ⟨p1, p2, p3⟩
      · have n1 : ¬ sx.chleft > 0 := by omega
        have n2 : ¬ sy.chleft > 0 := by omega
        have n3 : ¬ 0 < sx.chleft := by omega
        have n4 : ¬ 0 < sy.chleft := by omega
        simp [n1, n2, n3, n4]
      · by_cases hk : sx.chleft > 0
        · have hk2 : sy.chleft > 0 := by omega
          simp only [hk, hk2, if_true, p1, p2, true_and]
          intro _
          exact sameCells_append_right _ _ _ p3
        · have hk2 : ¬ sy.chleft > 0 := by omega
          have n3 : ¬ 0 < sx.chleft := by omega
          have n4 : ¬ 0 < sy.chleft := by omega
          simp [hk, hk2, n3, n4]
    | fault fy sy =>
      rw [hx, hy] at h
      simp [alike] at h
  | fault fx sx =>
    cases hy : scan mktime tm y { dest := 0, chleft := wrapInt max, writes := [] } with
    | exit sy =>
      rw [hx, hy] at h
      simp [alike] at h
    | fault fy sy =>
      rw [hx, hy] at h
      simp only [alike] at h
      simp [h.1]

theorem scan_R (mktime : Tm → Int) (tm : Tm) (q : List Char) :
    ∀ st : St, alike (scan mktime tm ('%' :: 'R' :: q) st)
      (scan mktime tm ('%' :: 'H' :: ':' :: '%' :: 'M' :: q) st) :=
  scan_split mktime tm 'R' 'H' 'M' (fmtInt true 2 tm.tm_hour) (fmtInt true 2 tm.tm_min)
    (by decide) (by decide) (by decide) (by simp [conv]) (by simp [conv]) (by simp [conv]) q

theorem scan_T (mktime : Tm → Int) (tm : Tm) (q : List Char) :
    ∀ st : St, alike (scan mktime tm ('%' :: 'T' :: q) st)
      (scan mktime tm
        ('%' :: 'H' :: ':' :: '%' :: 'M' :: ':' :: '%' :: 'S' :: q) st) := by
  intro st
  have h1 := scan_split mktime tm 'T' 'R' 'S'
    (fmtInt true 2 tm.tm_hour ++ ':' :: fmtInt true 2 tm.tm_min) (fmtInt true 2 tm.tm_sec)
    (by decide) (by decide) (by decide) (by simp [conv]) (by simp [conv]) (by simp [conv]) q st
  have h2 := scan_R mktime tm (':' :: '%' :: 'S' :: q) st
  exact alike_trans _ _ _ h1 h2

/-- C15: the conversions R and T are shortcuts. For every record, every capacity,
every prefix `p` with no dangling percent sign and every suffix `q`, strftime on
`p ++ "%R" ++ q` returns the same value as on `p ++ "%H:%M" ++ q`, and on
`p ++ "%T" ++ q` the same value as on `p ++ "%H:%M:%S" ++ q`; one call of a pair
succeeds exactly when the other does, and then every byte of the buffer is the
same after the two calls. -/
theorem shortcut_conversions (mktime : Tm → Int) (max : Nat) (p q : List Char) (tm : Tm)
    (hp : complete p = true) :
    ((strftime mktime max (p ++ "%R".toList ++ q) tm).ret
        = (strftime mktime max (p ++ "%H:%M".toList ++ q) tm).ret ∧
      (succeeds mktime max (p ++ "%R".toList ++ q) tm ↔
        succeeds mktime max (p ++ "%H:%M".toList ++ q) tm) ∧
      (succeeds mktime max (p ++ "%R".toList ++ q) tm →
        ∀ i, cell (strftime mktime max (p ++ "%R".toList ++ q) tm).writes i
          = cell (strftime mktime max (p ++ "%H:%M".toList ++ q) tm).writes i)) ∧
    ((strftime mktime max (p ++ "%T".toList ++ q) tm).ret
        = (strftime mktime max (p ++ "%H:%M:%S".toList ++ q) tm).ret ∧
      (succeeds mktime max (p ++ "%T".toList ++ q) tm ↔
        succeeds mktime max (p ++ "%H:%M:%S".toList ++ q) tm) ∧
      (succeeds mktime max (p ++ "%T".toList ++ q) tm →
        ∀ i, cell (strftime mktime max (p ++ "%T".toList ++ q) tm).writes i
          = cell (strftime mktime max (p ++ "%H:%M:%S".toList ++ q) tm).writes i)) := by
  have eR : p ++ "%R".toList ++ q = p ++ '%' :: 'R' :: q := List.append_assoc _ _ _
  have eHM : p ++ "%H:%M".toList ++ q = p ++ '%' :: 'H' :: ':' :: '%' :: 'M' :: q :=
    List.append_assoc _ _ _
  have eT : p ++ "%T".toList ++ q = p ++ '%' :: 'T' :: q := List.append_assoc _ _ _
  have eHMS : p ++ "%H:%M:%S".toList ++ q
      = p ++ '%' :: 'H' :: ':' :: '%' :: 'M' :: ':' :: '%' :: 'S' :: q :=
    List.append_assoc _ _ _
  rw [eR, eHM, eT, eHMS]
  exact ⟨alike_results mktime max _ _ tm
      (scan_prefix_alike mktime tm _ _ (scan_R mktime tm q) p.length p _ (le_refl _) hp),
    alike_results mktime max _ _ tm
      (scan_prefix_alike mktime tm _ _ (scan_T mktime tm q) p.length p _ (le_refl _) hp)⟩

theorem shortcut_conversions_witness :
    (strftime mktime0 32 ("at ".toList ++ "%R".toList ++ "!".toList) tmExample).ret
        = (strftime mktime0 32 ("at ".toList ++ "%H:%M".toList ++ "!".toList) tmExample).ret ∧
    (strftime mktime0 32 ("at ".toList ++ "%T".toList ++ "!".toList) tmExample).ret
        = (strftime mktime0 32 ("at ".toList ++ "%H:%M:%S".toList ++ "!".toList) tmExample).ret :=
  ⟨(shortcut_conversions mktime0 32 "at ".toList "!".toList tmExample (by decide)).1.1,
   (shortcut_conversions mktime0 32 "at ".toList "!".toList tmExample (by decide)).2.1⟩

/-! ## Capacities above INT_MAX

The theorems on single conversions above require `max ≤ INT_MAX`. Beyond that bound
the counter `int chleft = max` no longer holds the capacity, and the same
conversions return 0 although their text fits. -/

end Strftime
